import Mathlib

/-!
Verification of the macoma pixel-analysis pipeline.

This file gives a shallow embedding, in Lean 4, of the core algorithms of the
macoma repository — the color model (`WeightedMean`), the palette reducer
(`ReduceColors`), the window-based boundary classifier (`ColorDelimiter.Detect`),
the flood-fill region segmenter (`FindZones`) and the label-anchor selection
(`Zone.InteriorPoint`) — and proves the specification's testable properties
about them.

Modelling conventions:
* Go `uint8` channel values are modelled as `Fin 256`.
* Go `int` is modelled as `ℤ` (or `ℕ` where the source value is a count or an
  index that is provably non-negative); no Go computation embedded here can
  overflow 64-bit integers for the image sizes the claims quantify over, so
  arithmetic is exact.
* Go `float64` intermediate values inside `WeightedMean` are sums and products
  of 8-bit channel values and integer weights; these are exactly representable
  in `float64` (below 2^53), so the sums are modelled exactly in `ℚ`.  The
  final `math.Round` of a quotient is modelled as exact rational rounding
  half-away-from-zero (`goRound`), which agrees with the `float64` computation
  whenever the exact quotient is not within one double ulp of a half-integer
  boundary — in particular on all inputs appearing in this development.
* Loops are embedded as folds; the two worklist loops (`flood`, `bfsDist`) are
  embedded with an explicit fuel parameter that provably dominates the loop's
  decreasing measure, keeping every definition computable by kernel reduction.
-/

namespace Macoma

/-- 8-bit RGBA color, from `color.RGBA` in the source (`R, G, B, A uint8`). -/
structure RGBA where
  R : Fin 256
  G : Fin 256
  B : Fin 256
  A : Fin 256
deriving DecidableEq, Repr

/-- The Go zero value `color.RGBA{}`. -/
def RGBA.zero : RGBA := ⟨0, 0, 0, 0⟩

/-- Go's `math.Round`: round to nearest integer, halves away from zero. -/
def goRound (q : ℚ) : ℤ :=
  if q < 0 then -⌊-q + 1/2⌋ else ⌊q + 1/2⌋

/-- Go's conversion `uint8(z)` of an integer to `uint8`.  For values in
`[0, 255]` (the only case exercised by the source: the rounded quotients are
convex combinations of channel values) this is the identity; out-of-range
conversion is reduction mod 2^8. -/
def u8ofInt (z : ℤ) : Fin 256 :=
  ⟨(z % 256).toNat, by
    have h1 : 0 ≤ z % 256 := Int.emod_nonneg z (by decide)
    have h2 : z % 256 < 256 := Int.emod_lt_of_pos z (by decide)
    omega⟩

/-- Per-channel weighted average of a list of (value, weight) pairs,
as the specification words it ("per-channel weighted average"). -/
def weightedAvg (xs : List (ℚ × ℚ)) : ℚ :=
  (xs.map (fun p => p.1 * p.2)).sum / (xs.map Prod.snd).sum

/-- `color.WeightedMean(colors, weights)` from the source: per-channel weighted
mean of a set of colors.  A `nil` weight slice (modelled as `none`) means
uniform weight `1`.  The source indexes `weights[i]` for every color index, so
a matching length is assumed by the caller (the claims quantify over matching
lists); `List.zip` realises that pairing.  Empty input and zero total weight
return the zero color, exactly as the two early returns in the source. -/
def WeightedMean (colors : List RGBA) (weights : Option (List ℤ)) : RGBA :=
  if colors = [] then RGBA.zero
  else
    let ws : List ℚ :=
      match weights with
      | none => List.replicate colors.length 1
      | some l => l.map (fun w : ℤ => (w : ℚ))
    let pairs := colors.zip ws
    let totalR : ℚ := (pairs.map (fun cw => ((cw.1.R : ℕ) : ℚ) * cw.2)).sum
    let totalG : ℚ := (pairs.map (fun cw => ((cw.1.G : ℕ) : ℚ) * cw.2)).sum
    let totalB : ℚ := (pairs.map (fun cw => ((cw.1.B : ℕ) : ℚ) * cw.2)).sum
    let totalA : ℚ := (pairs.map (fun cw => ((cw.1.A : ℕ) : ℚ) * cw.2)).sum
    let totalW : ℚ := (pairs.map (fun cw => cw.2)).sum
    if totalW = 0 then RGBA.zero
    else
      { R := u8ofInt (goRound (totalR / totalW))
        G := u8ofInt (goRound (totalG / totalW))
        B := u8ofInt (goRound (totalB / totalW))
        A := u8ofInt (goRound (totalA / totalW)) }

/-! ## Palette reducer (`internal/aggregation/aggregation.go`) -/

/-- A resulting color with its assigned 1-based number (`aggregation.ColorEntry`). -/
structure ColorEntry where
  number : ℕ
  color : RGBA
deriving DecidableEq, Repr

/-- `aggregation.ColorMap`: the distinct palette entries plus the map
zone id → index into `entries`. -/
structure ColorMap where
  entries : List ColorEntry
  zoneMap : List ℕ
deriving DecidableEq, Repr

/-- The loop-local `colorGroup` of `ReduceColors`: representative color, the
zone ids collected into the group, and their per-zone weights (always 1). -/
structure ColorGroup where
  color : RGBA
  zoneIDs : List ℕ
  weights : List ℤ
deriving DecidableEq, Repr

instance : Inhabited ColorGroup := ⟨⟨RGBA.zero, [], []⟩⟩

/-- Index of the first group with the given color, or `none`.  The source
keeps a `map[color.RGBA]int` index alongside the group slice; since group
colors are pairwise distinct during the initial build, that map lookup
coincides with this positional scan. -/
def idxOfColor : List ColorGroup → RGBA → Option ℕ
  | [], _ => none
  | g :: t, c => if g.color = c then some 0 else (idxOfColor t c).map (· + 1)

/-- One step of the initial grouping loop of `ReduceColors`: zone `ic.1` with
color `ic.2` joins the existing group of bit-identical color, or starts a new
group. -/
def addZoneToGroups (groups : List ColorGroup) (ic : ℕ × RGBA) : List ColorGroup :=
  match idxOfColor groups ic.2 with
  | some idx =>
      let g := groups.getD idx default
      groups.set idx { g with zoneIDs := g.zoneIDs ++ [ic.1], weights := g.weights ++ [1] }
  | none => groups ++ [⟨ic.2, [ic.1], [1]⟩]

/-- The initial grouping of `ReduceColors`: zones with the exact same color
are grouped, in first-occurrence order. -/
def initGroups (zoneColors : List RGBA) : List ColorGroup :=
  zoneColors.enum.foldl addZoneToGroups []

/-- The unordered index pairs `(i, j)`, `i < j < n`, in the iteration order of
the closest-pair scan of `ReduceColors` (outer `i` ascending, inner `j`
ascending from `i+1`). -/
def pairList (n : ℕ) : List (ℕ × ℕ) :=
  (List.range n).flatMap (fun i => (List.range (n - (i + 1))).map (fun k => (i, i + 1 + k)))

/-- Representative color of group `i` (in-bounds in every use). -/
def groupColor (groups : List ColorGroup) (i : ℕ) : RGBA :=
  (groups.getD i default).color

/-- The closest-pair scan of `ReduceColors`.  The source compares `float64`
CIELAB distances starting from `bestDist = math.MaxFloat64` with best pair
`(0, 1)`; the distance function is abstracted as a parameter `dist` (see
`ReduceColors`), and the sentinel is modelled as `none` (every actual CIELAB
distance is below `MaxFloat64`, so the first compared pair always replaces the
sentinel, exactly as in the source). -/
def fcStep (dist : RGBA → RGBA → ℚ) (groups : List ColorGroup)
    (st : Option ℚ × ℕ × ℕ) (pr : ℕ × ℕ) : Option ℚ × ℕ × ℕ :=
  let d := dist (groupColor groups pr.1) (groupColor groups pr.2)
  match st.1 with
  | none => (some d, pr.1, pr.2)
  | some b => if d < b then (some d, pr.1, pr.2) else st

def findClosest (dist : RGBA → RGBA → ℚ) (groups : List ColorGroup) : ℕ × ℕ :=
  ((pairList groups.length).foldl (fcStep dist groups) (none, 0, 1)).2

/-- One iteration of the merge loop of `ReduceColors`: find the two closest
groups, merge the second into the first (concatenating zone ids and weights,
recomputing the representative color as the weighted mean of the member zone
colors), and remove the second.  The source's `totalWeight` accumulator is
dead code (computed, never read) and is omitted. -/
def mergedGroup (zoneColors : List RGBA) (gi gj : ColorGroup) : ColorGroup :=
  ⟨WeightedMean ((gi.zoneIDs ++ gj.zoneIDs).map (fun z => zoneColors.getD z RGBA.zero))
      (some (gi.weights ++ gj.weights)),
    gi.zoneIDs ++ gj.zoneIDs,
    gi.weights ++ gj.weights⟩

def mergeStep (dist : RGBA → RGBA → ℚ) (zoneColors : List RGBA)
    (groups : List ColorGroup) : List ColorGroup :=
  (groups.set (findClosest dist groups).1
      (mergedGroup zoneColors (groups.getD (findClosest dist groups).1 default)
        (groups.getD (findClosest dist groups).2 default))).eraseIdx
    (findClosest dist groups).2

/-- The merge loop of `ReduceColors` (`for maxColors > 0 && len(groups) > maxColors`),
with explicit fuel; each iteration removes exactly one group, so any fuel of at
least the initial group count makes the fuel case unreachable. -/
def mergeLoop (dist : RGBA → RGBA → ℚ) (zoneColors : List RGBA) (maxColors : ℕ) :
    ℕ → List ColorGroup → List ColorGroup
  | 0, groups => groups
  | fuel + 1, groups =>
      if 0 < maxColors ∧ maxColors < groups.length then
        mergeLoop dist zoneColors maxColors fuel (mergeStep dist zoneColors groups)
      else groups

/-- Inner loop of the finalize step: write group index `gi` into the zone map
slot of every zone id of one group. -/
def zmInner (gi : ℕ) (zm : List ℕ) (ids : List ℕ) : List ℕ :=
  ids.foldl (fun zm' z => zm'.set z gi) zm

/-- Outer loop of the finalize step, over the indexed group list. -/
def zmOuter (zm : List ℕ) (qs : List (ℕ × ColorGroup)) : List ℕ :=
  qs.foldl (fun zm' ig => zmInner ig.1 zm' ig.2.zoneIDs) zm

/-- The finalize step of `ReduceColors`: `cm.ZoneMap[zID] = i` for every zone
of every group `i`, over an initial zero-filled slice of length `n`. -/
def buildZoneMap (groups : List ColorGroup) (n : ℕ) : List ℕ :=
  zmOuter (List.replicate n 0) groups.enum

/-- `aggregation.ReduceColors(zoneColors, maxColors)`: reduce per-zone colors
to at most `maxColors` groups by iteratively merging the two closest colors,
then number the surviving groups 1-based and map each zone to its group.
The perceptual metric (`color.DistanceLAB`, a `float64` CIELAB distance in the
source) is abstracted as the parameter `dist`: every property proved below
holds for an arbitrary metric, hence in particular for the source's. -/
def ReduceColors (dist : RGBA → RGBA → ℚ) (zoneColors : List RGBA) (maxColors : ℕ) : ColorMap :=
  if zoneColors = [] then ⟨[], []⟩
  else
    let groups :=
      mergeLoop dist zoneColors maxColors (zoneColors.length + 1) (initGroups zoneColors)
    { entries := groups.enum.map (fun ig => ⟨ig.1 + 1, ig.2.color⟩)
      zoneMap := buildZoneMap groups zoneColors.length }

/-! ## Boundary classifier (`internal/detection/delimiter.go`) -/

/-- The decoded pixel buffer the classifier reads: width, height, and the
per-pixel color accessor (the source precomputes exactly this flat buffer
from `img.At` before classifying). -/
structure Image where
  width : ℕ
  height : ℕ
  pix : ℕ → ℕ → RGBA

/-- `detection.Map`: a boolean grid, `true` = delimiter pixel, indexed by the
flat row-major index `y*Width + x` exactly as the source slice. -/
structure DetectionMap where
  width : ℕ
  height : ℕ
  isDelimiter : ℕ → Bool

/-- Go's conversion `int(q)` of a float to an integer: truncation toward zero. -/
def goTrunc (q : ℚ) : ℤ :=
  if q < 0 then -⌊-q⌋ else ⌊q⌋

/-- The clamped 5×5 window around `(x, y)` (radius 2), row-major, exactly the
index set of the source's `ny`/`nx` loops: `ny` from `max (y-2) 0` to
`min (y+2) (h-1)`, `nx` likewise.  Natural subtraction realises the lower
clamps. -/
def window (w h x y : ℕ) : List (ℕ × ℕ) :=
  (List.range (min (y + 2) (h - 1) + 1 - (y - 2))).flatMap (fun dy =>
    (List.range (min (x + 2) (w - 1) + 1 - (x - 2))).map (fun dx =>
      (x - 2 + dx, y - 2 + dy)))

/-- The channel values (as integers) seen in the 5×5 window around `(x, y)`. -/
def winVals (img : Image) (f : RGBA → Fin 256) (x y : ℕ) : List ℤ :=
  (window img.width img.height x y).map (fun p => ((f (img.pix p.1 p.2) : ℕ) : ℤ))

/-- The per-pixel body of `ColorDelimiter.Detect`: fold the per-channel min
(from 255) and max (from 0) over the window, and mark the pixel when the
largest per-channel range strictly exceeds the threshold. -/
def detectAt (img : Image) (threshold : ℤ) (x y : ℕ) : Bool :=
  let minR := (winVals img RGBA.R x y).foldl min 255
  let maxR := (winVals img RGBA.R x y).foldl max 0
  let minG := (winVals img RGBA.G x y).foldl min 255
  let maxG := (winVals img RGBA.G x y).foldl max 0
  let minB := (winVals img RGBA.B x y).foldl min 255
  let maxB := (winVals img RGBA.B x y).foldl max 0
  let maxDiff := max (maxR - minR) (max (maxG - minG) (maxB - minB))
  decide (threshold < maxDiff)

/-- `ColorDelimiter.Detect`: the local range filter.  The Chebyshev threshold
is `int(tolerancePct / 100.0 * 255.0)` in the source; `tolerancePct` is
modelled as an exact rational.  The row-band parallelism of the source writes
disjoint rows of the output from immutable input, so its result equals this
sequential description.  Indices at or beyond `width*height` lie outside the
source's slice and are mapped to `false`. -/
def ColorDelimiterDetect (tolerancePct : ℚ) (img : Image) : DetectionMap :=
  let threshold := goTrunc (tolerancePct / 100 * 255)
  { width := img.width
    height := img.height
    isDelimiter := fun i =>
      if i < img.width * img.height then
        detectAt img threshold (i % img.width) (i / img.width)
      else false }

/-! ## Region segmenter (`FindZones` in the zone package) -/

/-- `image.Point` with Go `int` coordinates: `(X, Y)`. -/
abbrev Pt := ℤ × ℤ

/-- A connected region of filler pixels (`zone.Zone`): 0-based id and the
pixel list in discovery order. -/
structure Zone where
  id : ℕ
  pixels : List Pt
deriving DecidableEq, Repr

/-- Pointwise update of a label grid (the source's `labels[j] = v`). -/
def setL (labels : ℕ → ℤ) (j : ℕ) (v : ℤ) : ℕ → ℤ :=
  fun k => if k = j then v else labels k

/-- Flat row-major index `y*w + x` of a point (non-negative in every use). -/
def ptIdx (w : ℕ) (p : Pt) : ℕ :=
  (p.2 * (w : ℤ) + p.1).toNat

/-- The point lies inside the `w × h` grid (the source's bounds check). -/
def InRange (dm : DetectionMap) (p : Pt) : Prop :=
  0 ≤ p.1 ∧ p.1 < (dm.width : ℤ) ∧ 0 ≤ p.2 ∧ p.2 < (dm.height : ℤ)

instance (dm : DetectionMap) (p : Pt) : Decidable (InRange dm p) := by
  unfold InRange; infer_instance

/-- The 4-neighbor direction list, in the source's order. -/
def dirs : List Pt := [(-1, 0), (1, 0), (0, -1), (0, 1)]

/-- The neighbor-visit body of the flood fill: skip when out of bounds,
a delimiter, or already labeled; otherwise label the cell with the current
zone id and append the point to the queue. -/
def tryEnqueue (dm : DetectionMap) (zid : ℕ) (st : (ℕ → ℤ) × List Pt) (q : Pt) :
    (ℕ → ℤ) × List Pt :=
  if q.1 < 0 ∨ (dm.width : ℤ) ≤ q.1 ∨ q.2 < 0 ∨ (dm.height : ℤ) ≤ q.2 then st
  else
    let ni := ptIdx dm.width q
    if dm.isDelimiter ni = true ∨ st.1 ni ≠ -1 then st
    else (setL st.1 ni (zid : ℤ), st.2 ++ [q])

/-- Visit the four neighbors of a popped point, in direction order. -/
def floodNbrs (dm : DetectionMap) (zid : ℕ) (labels : ℕ → ℤ) (queue : List Pt) (p : Pt) :
    (ℕ → ℤ) × List Pt :=
  (dirs.map (fun d => (p.1 + d.1, p.2 + d.2))).foldl (tryEnqueue dm zid) (labels, queue)

/-- The BFS flood-fill loop of `FindZones`, with explicit fuel: pop the queue
head, record it in the zone's pixel list, and visit its neighbors.  The
measure `5 * (unlabeled filler cells) + (queue length)` strictly decreases
each iteration, so the fuel `5*w*h + 1` supplied by `scanStep` provably never
runs out (`flood_spec` below). -/
def flood (dm : DetectionMap) (zid : ℕ) :
    ℕ → (ℕ → ℤ) → List Pt → List Pt → (ℕ → ℤ) × List Pt
  | 0, labels, _, pixels => (labels, pixels)
  | _ + 1, labels, [], pixels => (labels, pixels)
  | fuel + 1, labels, p :: rest, pixels =>
      let st := floodNbrs dm zid labels rest p
      flood dm zid fuel st.1 st.2 (pixels ++ [p])

/-- The body of the row-major scan of `FindZones` at flat index `i`
(`x = i % w`, `y = i / w`): skip delimiter or already-labeled cells, otherwise
label the seed with the next zone id, flood-fill from it, and append the new
zone.  The source's `zoneID` counter always equals `len(zones)`. -/
def scanStep (dm : DetectionMap) (st : List Zone × (ℕ → ℤ)) (i : ℕ) :
    List Zone × (ℕ → ℤ) :=
  if dm.isDelimiter i = true ∨ st.2 i ≠ -1 then st
  else
    let zid := st.1.length
    let seed : Pt := (((i % dm.width : ℕ) : ℤ), ((i / dm.width : ℕ) : ℤ))
    let res := flood dm zid (5 * dm.width * dm.height + 1) (setL st.2 i (zid : ℤ)) [seed] []
    (st.1 ++ [⟨zid, res.2⟩], res.1)

/-- `zone.FindZones`: flood-fill filler pixels into connected zones.  The
nested row-major `y`/`x` loops of the source are flattened into the single
flat-index scan `i = y*w + x`, `i` ascending — the identical visit order.
Labels start all `-1`. -/
def FindZones (dm : DetectionMap) : List Zone × (ℕ → ℤ) :=
  (List.range (dm.width * dm.height)).foldl (scanStep dm) ([], fun _ => -1)

/-! ## Interior-point placement (`Zone.InteriorPoint` in the zone package) -/

/-- `Zone.Centroid`: per-axis integer mean of the pixel coordinates; Go's `/`
on `int` truncates toward zero (`Int.tdiv`).  Empty zone: the zero point. -/
def Zone.Centroid (z : Zone) : Pt :=
  if z.pixels.length = 0 then (0, 0)
  else
    (Int.tdiv (z.pixels.map Prod.fst).sum (z.pixels.length : ℤ),
     Int.tdiv (z.pixels.map Prod.snd).sum (z.pixels.length : ℤ))

/-- A zone pixel with at least one 4-neighbor outside the zone's pixel set
(the source's `isBoundary` scan over `dirs`, with early break ≙ `any`). -/
def isBoundaryPix (pixels : List Pt) (p : Pt) : Bool :=
  dirs.any (fun d => !decide ((p.1 + d.1, p.2 + d.2) ∈ pixels))

/-- Association-list update, modelling Go's `m[k] = v` on the `dist` map. -/
def setA (d : List (Pt × ℤ)) (p : Pt) (v : ℤ) : List (Pt × ℤ) :=
  if d.any (fun e => decide (e.1 = p)) then
    d.map (fun e => if e.1 = p then (p, v) else e)
  else d ++ [(p, v)]

/-- Association-list lookup, modelling Go's `v, ok := m[k]`. -/
def lookupA (d : List (Pt × ℤ)) (p : Pt) : Option ℤ :=
  (d.find? (fun e => decide (e.1 = p))).map Prod.snd

/-- The initial distance map and BFS queue of `InteriorPoint`: zone pixels with
a 4-neighbor outside the zone get distance 0 and are enqueued (in pixel-list
order); the rest get the unvisited sentinel `-1`. -/
def distInit (pixels : List Pt) : List (Pt × ℤ) × List Pt :=
  pixels.foldl
    (fun st p =>
      if isBoundaryPix pixels p then (setA st.1 p 0, st.2 ++ [p])
      else (setA st.1 p (-1), st.2))
    ([], [])

/-- One neighbor visit of the inward distance BFS: a neighbor present in
the map and still unvisited gets distance `nd` and is enqueued. -/
def bfsStep (nd : ℤ) (p : Pt) (st : List (Pt × ℤ) × List Pt) (d : Pt) :
    List (Pt × ℤ) × List Pt :=
  match lookupA st.1 (p.1 + d.1, p.2 + d.2) with
  | some dd => if dd = -1 then
      (setA st.1 (p.1 + d.1, p.2 + d.2) nd, st.2 ++ [(p.1 + d.1, p.2 + d.2)])
    else st
  | none => st

/-- The neighbor-visit loop of the inward distance BFS over the four
directions. -/
def bfsNbrs (dist : List (Pt × ℤ)) (queue : List Pt) (nd : ℤ) (p : Pt) :
    List (Pt × ℤ) × List Pt :=
  dirs.foldl (bfsStep nd p) (dist, queue)

/-- The multi-source BFS of `InteriorPoint` propagating distance-to-edge
inward, with explicit fuel.  Each enqueue turns a `-1` entry into a
non-negative one, so the measure `2 * (count of -1 entries) + queue length`
strictly decreases per iteration and is at most `3 * |pixels|` at the start;
the fuel supplied by `InteriorPoint` therefore never runs out. -/
def bfsDist : ℕ → List (Pt × ℤ) → List Pt → List (Pt × ℤ)
  | 0, dist, _ => dist
  | _ + 1, dist, [] => dist
  | fuel + 1, dist, p :: rest =>
      let nd := (lookupA dist p).getD 0 + 1
      let st := bfsNbrs dist rest nd p
      bfsDist fuel st.1 st.2

/-- Go's `int(^uint(0) >> 1)`: the largest 64-bit signed integer. -/
def maxIntGo : ℤ := 2 ^ 63 - 1

/-- State of the margin-candidate loop: best squared centroid distance, best
point, and whether any candidate was found. -/
structure CandState where
  bestSq : ℤ
  best : Pt
  found : Bool
deriving DecidableEq, Repr

/-- One pixel of the margin-candidate loop: pixels below the margin are
skipped, the rest compete on squared distance to the centroid. -/
def clStep (dist : List (Pt × ℤ)) (margin : ℤ) (centroid : Pt) (st : CandState) (p : Pt) :
    CandState :=
  if (lookupA dist p).getD 0 < margin then st
  else
    let sq := (p.1 - centroid.1) * (p.1 - centroid.1)
              + (p.2 - centroid.2) * (p.2 - centroid.2)
    if sq < st.bestSq then ⟨sq, p, true⟩ else st

/-- The margin-candidate loop of `InteriorPoint`: among zone pixels whose
distance-to-edge meets the margin, the one nearest the centroid. -/
def candLoop (pixels : List Pt) (dist : List (Pt × ℤ)) (margin : ℤ) (centroid : Pt) :
    CandState :=
  pixels.foldl (clStep dist margin centroid) ⟨maxIntGo, (0, 0), false⟩

/-- One pixel of the fallback loop: larger distance-to-edge wins, equal
distance falls back to the smaller squared distance to the centroid. -/
def fbStep (dist : List (Pt × ℤ)) (centroid : Pt) (st : ℤ × ℤ × Pt) (p : Pt) :
    ℤ × ℤ × Pt :=
  let d := (lookupA dist p).getD 0
  let sq := (p.1 - centroid.1) * (p.1 - centroid.1)
            + (p.2 - centroid.2) * (p.2 - centroid.2)
  if st.1 < d ∨ (d = st.1 ∧ sq < st.2.1) then (d, sq, p) else st

/-- The fallback loop of `InteriorPoint`: maximise distance-to-edge, ties
broken by squared distance to the centroid.  State is
`(bestEdgeDist, bestSq, best)`; `best` enters as the zero point left over from
the candidate loop. -/
def fallbackLoop (pixels : List Pt) (dist : List (Pt × ℤ)) (centroid : Pt) :
    ℤ × ℤ × Pt :=
  pixels.foldl (fbStep dist centroid) (-1, maxIntGo, (0, 0))

/-- The centroid shortcut of `InteriorPoint`:
`if d, ok := dist[centroid]; ok && d >= margin`. -/
def centroidOk (dist : List (Pt × ℤ)) (centroid : Pt) (margin : ℤ) : Bool :=
  match lookupA dist centroid with
  | some d => decide (margin ≤ d)
  | none => false

/-- `Zone.InteriorPoint`: the label anchor.  Empty zone: the zero point.
Otherwise: the centroid if it lies in the zone with distance-to-edge at least
the margin (15, or 5 for zones under 100 pixels); else the nearest-to-centroid
pixel meeting the margin; else the deepest pixel, ties toward the centroid. -/
def Zone.InteriorPoint (z : Zone) : Pt :=
  if z.pixels.length = 0 then (0, 0)
  else
    let centroid := z.Centroid
    let margin : ℤ := if z.pixels.length < 100 then 5 else 15
    let st0 := distInit z.pixels
    let dist := bfsDist (3 * z.pixels.length + 1) st0.1 st0.2
    if centroidOk dist centroid margin then centroid
    else
      let c := candLoop z.pixels dist margin centroid
      if c.found then c.best
      else (fallbackLoop z.pixels dist centroid).2.2

/-! ## Properties of the color model -/

/-- The (value, weight) pairs of one channel, as exact rationals. -/
def chanPairs (f : RGBA → Fin 256) (colors : List RGBA) (ws : List ℤ) : List (ℚ × ℚ) :=
  (colors.zip ws).map (fun cw => (((f cw.1 : ℕ) : ℚ), ((cw.2 : ℤ) : ℚ)))

theorem sum_map_intCast (l : List ℤ) : (l.map (fun w : ℤ => (w : ℚ))).sum = ((l.sum : ℤ) : ℚ) := by
  induction l with
  | nil => simp
  | cons a t ih =>
      rw [List.map_cons, List.sum_cons, List.sum_cons, ih]
      push_cast
      ring

theorem u8ofInt_coe {z : ℤ} (h0 : 0 ≤ z) (h1 : z < 256) : (((u8ofInt z) : ℕ) : ℤ) = z := by
  show (((z % 256).toNat : ℕ) : ℤ) = z
  rw [Int.emod_eq_of_lt h0 h1]
  omega

theorem goRound_bounds {q : ℚ} (h0 : 0 ≤ q) (h1 : q ≤ 255) :
    0 ≤ goRound q ∧ goRound q < 256 := by
  have hq : ¬ q < 0 := not_lt.mpr h0
  unfold goRound
  rw [if_neg hq]
  constructor
  · exact Int.le_floor.mpr (by push_cast; linarith)
  · exact Int.floor_lt.mpr (by push_cast; linarith)

theorem wavg_bounds (xs : List (ℚ × ℚ))
    (hv : ∀ p ∈ xs, 0 ≤ p.1 ∧ p.1 ≤ 255) (hw : ∀ p ∈ xs, 0 ≤ p.2)
    (hs : (xs.map Prod.snd).sum ≠ 0) :
    0 ≤ weightedAvg xs ∧ weightedAvg xs ≤ 255 := by
  have hden0 : 0 ≤ (xs.map Prod.snd).sum :=
    List.sum_nonneg (by intro x hx; obtain ⟨p, hp, rfl⟩ := List.mem_map.mp hx; exact hw p hp)
  have hden : 0 < (xs.map Prod.snd).sum := lt_of_le_of_ne hden0 (Ne.symm hs)
  have hnum0 : 0 ≤ (xs.map (fun p => p.1 * p.2)).sum :=
    List.sum_nonneg (by
      intro x hx; obtain ⟨p, hp, rfl⟩ := List.mem_map.mp hx
      exact mul_nonneg (hv p hp).1 (hw p hp))
  have hnum1 : (xs.map (fun p => p.1 * p.2)).sum ≤ 255 * (xs.map Prod.snd).sum := by
    rw [← List.sum_map_mul_left]
    exact List.sum_le_sum (by
      intro p hp
      exact mul_le_mul_of_nonneg_right (hv p hp).2 (hw p hp))
  constructor
  · exact div_nonneg hnum0 hden0
  · rw [weightedAvg, div_le_iff₀ hden]; linarith

theorem chanPairs_fst_bounds (f : RGBA → Fin 256) (colors : List RGBA) (ws : List ℤ) :
    ∀ p ∈ chanPairs f colors ws, 0 ≤ p.1 ∧ p.1 ≤ 255 := by
  intro p hp
  obtain ⟨cw, _, rfl⟩ := List.mem_map.mp hp
  have := (f cw.1).isLt
  constructor
  · show (0 : ℚ) ≤ ((f cw.1 : ℕ) : ℚ)
    positivity
  · show ((f cw.1 : ℕ) : ℚ) ≤ 255
    exact_mod_cast Nat.lt_succ_iff.mp this

theorem chanPairs_snd (f : RGBA → Fin 256) (colors : List RGBA) (ws : List ℤ)
    (hlen : ws.length = colors.length) :
    (chanPairs f colors ws).map Prod.snd = ws.map (fun w : ℤ => (w : ℚ)) := by
  unfold chanPairs
  rw [List.map_map]
  have : (Prod.snd ∘ fun cw : RGBA × ℤ => (((f cw.1 : ℕ) : ℚ), ((cw.2 : ℤ) : ℚ)))
      = (fun w : ℤ => (w : ℚ)) ∘ Prod.snd := rfl
  rw [this, ← List.map_map]
  rw [List.map_snd_zip colors ws (le_of_eq hlen)]

/-- C8: `WeightedMean` is a total function: for every color list with a
matching non-negative weight list it returns the per-channel weighted average
rounded to the nearest integer channel value, and it returns the zero color
for an empty color list or when the weights sum to zero — the division is
guarded and never reached with a zero divisor. -/
theorem weightedMean_total (colors : List RGBA) (ws : List ℤ)
    (hlen : ws.length = colors.length) (hnn : ∀ w ∈ ws, 0 ≤ w) :
    WeightedMean [] (some ws) = RGBA.zero ∧
    (ws.sum = 0 → WeightedMean colors (some ws) = RGBA.zero) ∧
    (ws.sum ≠ 0 →
      ((((WeightedMean colors (some ws)).R : ℕ) : ℤ)
          = goRound (weightedAvg (chanPairs RGBA.R colors ws)) ∧
       (((WeightedMean colors (some ws)).G : ℕ) : ℤ)
          = goRound (weightedAvg (chanPairs RGBA.G colors ws)) ∧
       (((WeightedMean colors (some ws)).B : ℕ) : ℤ)
          = goRound (weightedAvg (chanPairs RGBA.B colors ws)) ∧
       (((WeightedMean colors (some ws)).A : ℕ) : ℤ)
          = goRound (weightedAvg (chanPairs RGBA.A colors ws)))) := by
  refine ⟨by simp [WeightedMean], ?_, ?_⟩
  case _ =>
    intro hz
    by_cases hne : colors = []
    · simp [WeightedMean, hne]
    · have hW : ((colors.zip (ws.map (fun w : ℤ => (w : ℚ)))).map
          (fun cw => cw.2)).sum = ((ws.sum : ℤ) : ℚ) := by
        have h1 : (colors.zip (ws.map (fun w : ℤ => (w : ℚ)))).map (fun cw => cw.2)
            = ws.map (fun w : ℤ => (w : ℚ)) := by
          exact List.map_snd_zip colors (ws.map (fun w : ℤ => (w : ℚ)))
            (by rw [List.length_map]; exact le_of_eq hlen)
        rw [h1, sum_map_intCast]
      simp only [WeightedMean, if_neg hne]
      rw [hW]
      simp [hz]
  case _ =>
    intro hz
    have hne : colors ≠ [] := by
      intro h
      subst h
      simp at hlen
      exact hz (by simp [hlen])
    have hW : ((colors.zip (ws.map (fun w : ℤ => (w : ℚ)))).map
        (fun cw => cw.2)).sum = ((ws.sum : ℤ) : ℚ) := by
      have h1 : (colors.zip (ws.map (fun w : ℤ => (w : ℚ)))).map (fun cw => cw.2)
          = ws.map (fun w : ℤ => (w : ℚ)) := by
        exact List.map_snd_zip colors (ws.map (fun w : ℤ => (w : ℚ)))
          (by rw [List.length_map]; exact le_of_eq hlen)
      rw [h1, sum_map_intCast]
    have hWz : ((ws.sum : ℤ) : ℚ) ≠ 0 := Int.cast_ne_zero.mpr hz
    have hnum : ∀ f : RGBA → Fin 256,
        ((colors.zip (ws.map (fun w : ℤ => (w : ℚ)))).map
          (fun cw => ((f cw.1 : ℕ) : ℚ) * cw.2)).sum
        = ((chanPairs f colors ws).map (fun p => p.1 * p.2)).sum := by
      intro f
      unfold chanPairs
      rw [List.zip_map_right, List.map_map, List.map_map]
      rfl
    have havg : ∀ f : RGBA → Fin 256,
        goRound (((colors.zip (ws.map (fun w : ℤ => (w : ℚ)))).map
            (fun cw => ((f cw.1 : ℕ) : ℚ) * cw.2)).sum / ((ws.sum : ℤ) : ℚ))
          = goRound (weightedAvg (chanPairs f colors ws)) := by
      intro f
      rw [hnum f, weightedAvg, chanPairs_snd f colors ws hlen, sum_map_intCast]
    have hbounds : ∀ f : RGBA → Fin 256,
        0 ≤ goRound (weightedAvg (chanPairs f colors ws)) ∧
        goRound (weightedAvg (chanPairs f colors ws)) < 256 := by
      intro f
      have hsnd : ((chanPairs f colors ws).map Prod.snd).sum ≠ 0 := by
        rw [chanPairs_snd f colors ws hlen, sum_map_intCast]
        exact hWz
      have hw' : ∀ p ∈ chanPairs f colors ws, 0 ≤ p.2 := by
        intro p hp
        obtain ⟨cw, hcw, rfl⟩ := List.mem_map.mp hp
        have : cw.2 ∈ ws := (List.of_mem_zip hcw).2
        show (0 : ℚ) ≤ ((cw.2 : ℤ) : ℚ)
        exact_mod_cast hnn cw.2 this
      have := wavg_bounds (chanPairs f colors ws) (chanPairs_fst_bounds f colors ws) hw' hsnd
      exact goRound_bounds this.1 this.2
    simp only [WeightedMean, if_neg hne]
    rw [hW]
    simp only [if_neg hWz]
    refine ⟨?_, ?_, ?_, ?_⟩
    · rw [havg RGBA.R]; exact u8ofInt_coe (hbounds RGBA.R).1 (hbounds RGBA.R).2
    · rw [havg RGBA.G]; exact u8ofInt_coe (hbounds RGBA.G).1 (hbounds RGBA.G).2
    · rw [havg RGBA.B]; exact u8ofInt_coe (hbounds RGBA.B).1 (hbounds RGBA.B).2
    · rw [havg RGBA.A]; exact u8ofInt_coe (hbounds RGBA.A).1 (hbounds RGBA.A).2

end Macoma

namespace Macoma

/-- Witness for C8: a concrete 3:1 mix of red and black. -/
theorem weightedMean_total_witness :
    (∀ w ∈ [(3 : ℤ), 1], 0 ≤ w) ∧
    ((((WeightedMean [RGBA.mk 255 0 0 255, RGBA.mk 0 0 0 255] (some [3, 1])).R : ℕ) : ℤ)
      = goRound (weightedAvg
          (chanPairs RGBA.R [RGBA.mk 255 0 0 255, RGBA.mk 0 0 0 255] [3, 1]))) :=
  ⟨by decide, ((weightedMean_total _ _ (by decide) (by decide)).2.2 (by decide)).1⟩

end Macoma

namespace Macoma

/-! ## Properties of the palette reducer -/

/-- The number of distinct input colors. -/
def distinctCount (zoneColors : List RGBA) : ℕ := zoneColors.toFinset.card

theorem idxOfColor_none {l : List ColorGroup} {c : RGBA}
    (h : idxOfColor l c = none) : ∀ g ∈ l, g.color ≠ c := by
  induction l with
  | nil => simp
  | cons g t ih =>
      intro g' hg'
      unfold idxOfColor at h
      by_cases hc : g.color = c
      · simp [hc] at h
      · simp only [if_neg hc] at h
        rcases List.mem_cons.mp hg' with rfl | hmem
        · exact hc
        · exact ih (by cases hix : idxOfColor t c with
            | none => rfl
            | some k => rw [hix] at h; simp at h) g' hmem

theorem idxOfColor_some {l : List ColorGroup} {c : RGBA} {i : ℕ}
    (h : idxOfColor l c = some i) : ∃ hi : i < l.length, l[i].color = c := by
  induction l generalizing i with
  | nil => simp [idxOfColor] at h
  | cons g t ih =>
      unfold idxOfColor at h
      by_cases hc : g.color = c
      · simp only [if_pos hc, Option.some.injEq] at h
        subst h
        exact ⟨by simp, hc⟩
      · simp only [if_neg hc] at h
        cases hix : idxOfColor t c with
        | none => rw [hix] at h; simp at h
        | some k =>
            rw [hix] at h
            simp only [Option.map_some', Option.some.injEq] at h
            subst h
            obtain ⟨hk, hcol⟩ := ih hix
            exact ⟨by simpa using Nat.succ_lt_succ hk, by simpa using hcol⟩

theorem count_flatMap_set {α β : Type} [BEq β] (f : α → List β) :
    ∀ (l : List α) (i : ℕ) (a : α) (hi : i < l.length) (z : β),
    ((l.set i a).flatMap f).count z + (f l[i]).count z
      = (l.flatMap f).count z + (f a).count z := by
  intro l
  induction l with
  | nil => intro i a hi z; simp at hi
  | cons x t ih =>
      intro i a hi z
      cases i with
      | zero => simp [List.flatMap_cons, List.count_append]; omega
      | succ n =>
          simp only [List.set_cons_succ, List.flatMap_cons, List.count_append,
            List.getElem_cons_succ]
          have := ih n a (by simpa using Nat.lt_of_succ_lt_succ hi) z
          omega

theorem count_flatMap_eraseIdx {α β : Type} [BEq β] (f : α → List β) :
    ∀ (l : List α) (i : ℕ) (hi : i < l.length) (z : β),
    ((l.eraseIdx i).flatMap f).count z + (f l[i]).count z = (l.flatMap f).count z := by
  intro l
  induction l with
  | nil => intro i hi z; simp at hi
  | cons x t ih =>
      intro i hi z
      cases i with
      | zero => simp [List.flatMap_cons, List.count_append]; omega
      | succ n =>
          simp only [List.eraseIdx_cons_succ, List.flatMap_cons, List.count_append,
            List.getElem_cons_succ]
          have := ih n (by simpa using Nat.lt_of_succ_lt_succ hi) z
          omega

theorem sum_eq_one_unique :
    ∀ (l : List ℕ), l.sum = 1 →
    ∃ i, ∃ hi : i < l.length, l[i] = 1 ∧ ∀ j (hj : j < l.length), j ≠ i → l[j] = 0 := by
  intro l
  induction l with
  | nil => intro h; simp at h
  | cons a t ih =>
      intro h
      simp only [List.sum_cons] at h
      by_cases ha : a = 1
      · subst ha
        have ht : t.sum = 0 := by omega
        refine ⟨0, by simp, by simp, ?_⟩
        intro j hj hne
        cases j with
        | zero => exact absurd rfl hne
        | succ m =>
            simp only [List.getElem_cons_succ]
            exact (List.sum_eq_zero_iff.mp ht) _ (List.getElem_mem _)
      · have ha0 : a = 0 := by omega
        subst ha0
        obtain ⟨i, hi, hone, hzero⟩ := ih (by omega)
        refine ⟨i + 1, by simpa using Nat.succ_lt_succ hi, by simpa using hone, ?_⟩
        intro j hj hne
        cases j with
        | zero => simp
        | succ m =>
            simp only [List.getElem_cons_succ]
            exact hzero m (by simpa using Nat.lt_of_succ_lt_succ hj) (by omega)

end Macoma

namespace Macoma

theorem set_getElem_self {α : Type} (l : List α) (i : ℕ) (hi : i < l.length) :
    l.set i l[i] = l := by
  apply List.ext_getElem?
  intro j
  rw [List.getElem?_set]
  by_cases h : i = j
  · subst h; simp [List.getElem?_eq_getElem, hi]
  · simp [h]

theorem getD_append_len {α : Type} (l : List α) (c d : α) :
    (l ++ [c]).getD l.length d = c := by
  rw [List.getD_eq_getElem?_getD, List.getElem?_append]
  simp

theorem initGroups_append (zc : List RGBA) (c : RGBA) :
    initGroups (zc ++ [c]) = addZoneToGroups (initGroups zc) (zc.length, c) := by
  unfold initGroups
  rw [List.enum_append, List.foldl_append]
  rfl

/-- The inductive invariant of the initial grouping loop: group colors are
distinct and are exactly the input colors; zone `z` lies in group `k` exactly
when its color is group `k`'s color; groups are non-empty; every in-range zone
id occurs exactly once across all groups. -/
def InitInv (zc : List RGBA) (groups : List ColorGroup) : Prop :=
  (groups.map ColorGroup.color).Nodup ∧
  (∀ c : RGBA, c ∈ groups.map ColorGroup.color ↔ c ∈ zc) ∧
  (∀ k (hk : k < groups.length) (z : ℕ),
      z ∈ groups[k].zoneIDs ↔ z < zc.length ∧ zc.getD z RGBA.zero = groups[k].color) ∧
  (∀ g ∈ groups, g.zoneIDs ≠ []) ∧
  (∀ z : ℕ, (groups.flatMap ColorGroup.zoneIDs).count z = if z < zc.length then 1 else 0)

theorem initGroups_inv (zc : List RGBA) : InitInv zc (initGroups zc) := by
  induction zc using List.reverseRecOn with
  | nil =>
      refine ⟨by simp [initGroups], by simp [initGroups], ?_, by simp [initGroups], ?_⟩
      · intro k hk z
        simp [initGroups] at hk
      · intro z
        simp [initGroups]
  | append_singleton zs c ih =>
      obtain ⟨nd, memc, miff, nonemp, cnt⟩ := ih
      rw [initGroups_append]
      set G := initGroups zs with hG
      set n := zs.length with hn
      unfold addZoneToGroups
      cases hidx : idxOfColor G c with
      | some idx =>
          obtain ⟨hlt, hcol⟩ := idxOfColor_some hidx
          simp only []
          rw [List.getD_eq_getElem G default hlt]
          set g' : ColorGroup :=
            { G[idx] with zoneIDs := G[idx].zoneIDs ++ [n], weights := G[idx].weights ++ [1] }
            with hg'
          have hcolor' : g'.color = c := hcol
          have hlen2 : (zs ++ [c]).length = n + 1 := by simp
          have hmapc : (G.set idx g').map ColorGroup.color = G.map ColorGroup.color := by
            rw [List.map_set]
            apply List.ext_getElem?
            intro j
            rw [List.getElem?_set]
            by_cases hij : idx = j
            · subst hij
              rw [if_pos rfl, if_pos (by simpa using hlt), List.getElem?_map,
                List.getElem?_eq_getElem hlt]
              rfl
            · rw [if_neg hij]
          refine ⟨?_, ?_, ?_, ?_, ?_⟩
          · rw [hmapc]; exact nd
          · intro c'
            rw [hmapc]
            constructor
            · intro h; exact List.mem_append_left _ ((memc c').mp h)
            · intro h
              rcases List.mem_append.mp h with h | h
              · exact (memc c').mpr h
              · have : c' = c := by simpa using h
                subst this
                rw [← hcol]
                exact List.mem_map.mpr ⟨G[idx], List.getElem_mem hlt, rfl⟩
          · intro k hk z
            have hkG : k < G.length := by simpa using hk
            by_cases hki : k = idx
            · have hget : (G.set idx g')[k] = g' := by
                rw [List.getElem_set, if_pos hki.symm]
              rw [hget]
              have hzid : g'.zoneIDs = G[idx].zoneIDs ++ [n] := rfl
              rw [hzid, List.mem_append, hlen2]
              constructor
              · rintro (hz | hz)
                · obtain ⟨hzn, hzc⟩ := (miff idx hlt z).mp hz
                  refine ⟨by omega, ?_⟩
                  rw [List.getD_append _ _ _ _ hzn]
                  exact hzc.trans (hcol.trans hcolor'.symm)
                · have hz' : z = n := by simpa using hz
                  subst hz'
                  exact ⟨by omega, by rw [getD_append_len, hcolor']⟩
              · rintro ⟨hzn, hzc⟩
                by_cases hzn' : z < n
                · left
                  rw [List.getD_append _ _ _ _ hzn'] at hzc
                  refine (miff idx hlt z).mpr ⟨hzn', ?_⟩
                  exact hzc.trans (hcolor'.trans hcol.symm)
                · right
                  have : z = n := by omega
                  simp [this]
            · have hget : (G.set idx g')[k] = G[k] := by
                rw [List.getElem_set, if_neg (fun he => hki he.symm)]
              rw [hget, hlen2]
              constructor
              · rintro hz
                obtain ⟨hzn, hzc⟩ := (miff k hkG z).mp hz
                refine ⟨by omega, ?_⟩
                rw [List.getD_append _ _ _ _ hzn]
                exact hzc
              · rintro ⟨hzn, hzc⟩
                by_cases hzn' : z < n
                · rw [List.getD_append _ _ _ _ hzn'] at hzc
                  exact (miff k hkG z).mpr ⟨hzn', hzc⟩
                · exfalso
                  have hz' : z = n := by omega
                  subst hz'
                  rw [getD_append_len] at hzc
                  have hne : G[k].color ≠ G[idx].color := by
                    have hkm : k < (G.map ColorGroup.color).length := by simpa using hkG
                    have him : idx < (G.map ColorGroup.color).length := by simpa using hlt
                    have hgk : (G.map ColorGroup.color)[k] = G[k].color :=
                      List.getElem_map ColorGroup.color
                    have hgi : (G.map ColorGroup.color)[idx] = G[idx].color :=
                      List.getElem_map ColorGroup.color
                    rcases Nat.lt_or_ge k idx with h | h
                    · have := (List.pairwise_iff_getElem.mp nd) k idx hkm him h
                      rw [hgk, hgi] at this
                      exact this
                    · have hlt2 : idx < k := lt_of_le_of_ne h (fun he => hki he.symm)
                      have := (List.pairwise_iff_getElem.mp nd) idx k him hkm hlt2
                      rw [hgk, hgi] at this
                      exact fun he => this he.symm
                  exact hne (by rw [← hzc, hcol])
          · intro g hg
            rcases List.mem_or_eq_of_mem_set hg with h | h
            · exact nonemp g h
            · subst h
              simp [hg']
          · intro z
            have hstep := count_flatMap_set ColorGroup.zoneIDs G idx g' hlt z
            have hcount : (g'.zoneIDs).count z = (G[idx].zoneIDs).count z + [n].count z := by
              rw [show g'.zoneIDs = G[idx].zoneIDs ++ [n] from rfl, List.count_append]
            rw [hcount] at hstep
            have hold := cnt z
            have hsingle : ([n].count z) = if z = n then 1 else 0 := by
              rcases eq_or_ne z n with rfl | hne
              · simp
              · simp [hne, hne.symm]
            rw [hlen2]
            by_cases h : z < n
            · rw [if_pos h] at hold
              rw [if_pos (by omega)]
              rw [hsingle, if_neg (by omega)] at hstep
              omega
            · by_cases h' : z = n
              · subst h'
                rw [if_neg (by omega)] at hold
                rw [if_pos (by omega)]
                rw [hsingle, if_pos rfl] at hstep
                omega
              · rw [if_neg (by omega)] at hold
                rw [if_neg (by omega)]
                rw [hsingle, if_neg h'] at hstep
                omega
      | none =>
          have hno := idxOfColor_none hidx
          simp only []
          refine ⟨?_, ?_, ?_, ?_, ?_⟩
          · rw [List.map_append]
            rw [List.nodup_append]
            refine ⟨nd, by simp, ?_⟩
            intro c' hc' hc''
            have : c' = c := by simpa using hc''
            subst this
            obtain ⟨g, hg, hgc⟩ := List.mem_map.mp hc'
            exact hno g hg hgc
          · intro c'
            rw [List.map_append, List.mem_append, List.mem_append]
            constructor
            · rintro (h | h)
              · exact Or.inl ((memc c').mp h)
              · right; simpa using h
            · rintro (h | h)
              · exact Or.inl ((memc c').mpr h)
              · right; simpa using h
          · intro k hk z
            have hlen2 : (zs ++ [c]).length = n + 1 := by simp
            rw [hlen2]
            have hk' : k < G.length + 1 := by simpa using hk
            by_cases hkG : k < G.length
            · have hget : (G ++ [⟨c, [n], [1]⟩])[k] = G[k] := List.getElem_append_left hkG
              rw [hget, miff k hkG z]
              constructor
              · rintro ⟨hzn, hzc⟩
                refine ⟨by omega, ?_⟩
                rw [List.getD_append _ _ _ _ hzn]
                exact hzc
              · rintro ⟨hzn, hzc⟩
                by_cases hzn' : z < n
                · rw [List.getD_append _ _ _ _ hzn'] at hzc
                  exact ⟨hzn', hzc⟩
                · exfalso
                  have hz' : z = n := by omega
                  subst hz'
                  rw [getD_append_len] at hzc
                  exact hno G[k] (List.getElem_mem hkG) hzc.symm
            · have hkeq : k = G.length := by omega
              subst hkeq
              have hget : (G ++ [⟨c, [n], [1]⟩])[G.length] = ⟨c, [n], [1]⟩ := by
                rw [List.getElem_append_right (le_refl _)]
                simp
              rw [hget]
              constructor
              · intro hz
                have hz' : z = n := by simpa using hz
                subst hz'
                refine ⟨by omega, ?_⟩
                rw [getD_append_len]
              · rintro ⟨hzn, hzc⟩
                by_cases hzn' : z < n
                · exfalso
                  rw [List.getD_append _ _ _ _ hzn'] at hzc
                  have hzc' : zs.getD z RGBA.zero = c := hzc
                  have hmem : c ∈ zs := by
                    rw [← hzc', List.getD_eq_getElem _ _ hzn']
                    exact List.getElem_mem hzn'
                  obtain ⟨g, hg, hgc⟩ := List.mem_map.mp ((memc c).mpr hmem)
                  exact hno g hg hgc
                · have hz' : z = n := by omega
                  subst hz'
                  simp
          · intro g hg
            rcases List.mem_append.mp hg with h | h
            · exact nonemp g h
            · have : g = ⟨c, [n], [1]⟩ := by simpa using h
              subst this
              simp
          · intro z
            have hlen2 : (zs ++ [c]).length = n + 1 := by simp
            rw [List.flatMap_append, List.count_append, hlen2]
            have hold := cnt z
            have hnew : (([⟨c, [n], [1]⟩] : List ColorGroup).flatMap ColorGroup.zoneIDs).count z
                = if z = n then 1 else 0 := by
              rcases eq_or_ne z n with rfl | hne
              · simp
              · simp [hne, hne.symm]
            rw [hnew]
            by_cases h : z < n
            · rw [if_pos h] at hold
              rw [if_neg (by omega : ¬ z = n), if_pos (by omega : z < n + 1)]
              omega
            · by_cases h' : z = n
              · subst h'
                rw [if_neg (by omega)] at hold
                rw [if_pos rfl, if_pos (by omega : n < n + 1)]
                omega
              · rw [if_neg (by omega : ¬ z < n)] at hold
                rw [if_neg h', if_neg (by omega : ¬ z < n + 1)]
                omega

end Macoma

namespace Macoma

theorem pairList_mem {n : ℕ} : ∀ pr ∈ pairList n, pr.1 < pr.2 ∧ pr.2 < n := by
  intro pr hpr
  unfold pairList at hpr
  obtain ⟨i, hi, hmap⟩ := List.mem_flatMap.mp hpr
  obtain ⟨k, hk, rfl⟩ := List.mem_map.mp hmap
  have hi' : i < n := List.mem_range.mp hi
  have hk' : k < n - (i + 1) := List.mem_range.mp hk
  exact ⟨by omega, by omega⟩

theorem fcStep_inv {dist : RGBA → RGBA → ℚ} {groups : List ColorGroup} {n : ℕ}
    (st : Option ℚ × ℕ × ℕ) (pr : ℕ × ℕ)
    (hst : st.2.1 < st.2.2 ∧ st.2.2 < n) (hpr : pr.1 < pr.2 ∧ pr.2 < n) :
    (fcStep dist groups st pr).2.1 < (fcStep dist groups st pr).2.2 ∧
      (fcStep dist groups st pr).2.2 < n := by
  obtain ⟨b, i, j⟩ := st
  unfold fcStep
  cases b with
  | none => exact hpr
  | some b0 =>
      simp only []
      split
      · exact hpr
      · exact hst

theorem foldl_fcStep_inv {dist : RGBA → RGBA → ℚ} {groups : List ColorGroup} {n : ℕ} :
    ∀ (l : List (ℕ × ℕ)) (st : Option ℚ × ℕ × ℕ),
    (∀ pr ∈ l, pr.1 < pr.2 ∧ pr.2 < n) →
    st.2.1 < st.2.2 ∧ st.2.2 < n →
    (l.foldl (fcStep dist groups) st).2.1 < (l.foldl (fcStep dist groups) st).2.2 ∧
      (l.foldl (fcStep dist groups) st).2.2 < n := by
  intro l
  induction l with
  | nil => intro st _ hst; exact hst
  | cons pr t ih =>
      intro st hl hst
      rw [List.foldl_cons]
      exact ih _ (fun q hq => hl q (List.mem_cons_of_mem pr hq))
        (fcStep_inv st pr hst (hl pr (List.mem_cons_self pr t)))

theorem findClosest_bounds (dist : RGBA → RGBA → ℚ) (groups : List ColorGroup)
    (h2 : 2 ≤ groups.length) :
    (findClosest dist groups).1 < (findClosest dist groups).2 ∧
      (findClosest dist groups).2 < groups.length := by
  unfold findClosest
  exact foldl_fcStep_inv (pairList groups.length) (none, 0, 1)
    (fun pr hpr => pairList_mem pr hpr)
    ⟨by show (0 : ℕ) < 1; omega, by show (1 : ℕ) < groups.length; omega⟩

/-- The invariant the merge loop maintains on the group list: every group is
non-empty and every in-range zone id occurs in exactly one group. -/
def GroupsWF (n : ℕ) (groups : List ColorGroup) : Prop :=
  (∀ g ∈ groups, g.zoneIDs ≠ []) ∧
  (∀ z : ℕ, (groups.flatMap ColorGroup.zoneIDs).count z = if z < n then 1 else 0)

theorem initGroups_wf (zc : List RGBA) : GroupsWF zc.length (initGroups zc) := by
  obtain ⟨_, _, _, h4, h5⟩ := initGroups_inv zc
  exact ⟨h4, h5⟩

theorem mergeStep_length (dist : RGBA → RGBA → ℚ) (zc : List RGBA)
    (groups : List ColorGroup) (h2 : 2 ≤ groups.length) :
    (mergeStep dist zc groups).length + 1 = groups.length := by
  obtain ⟨hij, hj⟩ := findClosest_bounds dist groups h2
  unfold mergeStep
  rw [List.length_eraseIdx]
  rw [if_pos (by rw [List.length_set]; exact hj)]
  rw [List.length_set]
  omega

theorem mergeStep_wf {n : ℕ} (dist : RGBA → RGBA → ℚ) (zc : List RGBA)
    (groups : List ColorGroup) (h2 : 2 ≤ groups.length) (hwf : GroupsWF n groups) :
    GroupsWF n (mergeStep dist zc groups) := by
  obtain ⟨hij, hj⟩ := findClosest_bounds dist groups h2
  obtain ⟨hne, hcnt⟩ := hwf
  set bi := (findClosest dist groups).1 with hbi
  set bj := (findClosest dist groups).2 with hbj
  have hbi' : bi < groups.length := lt_trans hij hj
  unfold mergeStep
  rw [← hbi, ← hbj]
  set merged : ColorGroup :=
    mergedGroup zc (groups.getD bi default) (groups.getD bj default) with hmg
  constructor
  · intro g hg
    have hg' := List.mem_of_mem_eraseIdx hg
    rcases List.mem_or_eq_of_mem_set hg' with h | h
    · exact hne g h
    · subst h
      have : (groups.getD bi default).zoneIDs ≠ [] := by
        rw [List.getD_eq_getElem groups default hbi']
        exact hne _ (List.getElem_mem hbi')
      simp only [hmg, mergedGroup]
      intro hcontra
      rw [List.append_eq_nil] at hcontra
      exact this hcontra.1
  · intro z
    have hset := count_flatMap_set ColorGroup.zoneIDs groups bi merged hbi' z
    have hbj2 : bj < (groups.set bi merged).length := by rw [List.length_set]; exact hj
    have herase := count_flatMap_eraseIdx ColorGroup.zoneIDs (groups.set bi merged) bj hbj2 z
    have hgetbj : (groups.set bi merged)[bj] = groups[bj] := by
      rw [List.getElem_set, if_neg (by omega)]
    have hmerged : (merged.zoneIDs).count z
        = (groups[bi].zoneIDs).count z + (groups[bj].zoneIDs).count z := by
      simp only [hmg, mergedGroup]
      rw [List.getD_eq_getElem groups default hbi', List.getD_eq_getElem groups default hj]
      exact List.count_append z _ _
    rw [hgetbj] at herase
    rw [hmerged] at hset
    rw [← hcnt z]
    omega

theorem mergeLoop_zero (dist : RGBA → RGBA → ℚ) (zc : List RGBA) :
    ∀ (fuel : ℕ) (groups : List ColorGroup), mergeLoop dist zc 0 fuel groups = groups := by
  intro fuel groups
  cases fuel with
  | zero => rfl
  | succ f => simp [mergeLoop]

theorem mergeLoop_wf {n : ℕ} (dist : RGBA → RGBA → ℚ) (zc : List RGBA) (m : ℕ) :
    ∀ (fuel : ℕ) (groups : List ColorGroup), GroupsWF n groups →
      GroupsWF n (mergeLoop dist zc m fuel groups) := by
  intro fuel
  induction fuel with
  | zero => intro groups h; exact h
  | succ f ih =>
      intro groups h
      unfold mergeLoop
      split
      · rename_i hcond
        exact ih _ (mergeStep_wf dist zc groups (by omega) h)
      · exact h

theorem mergeLoop_length (dist : RGBA → RGBA → ℚ) (zc : List RGBA) (m : ℕ) (hm : 0 < m) :
    ∀ (fuel : ℕ) (groups : List ColorGroup), groups.length ≤ fuel + m →
      (mergeLoop dist zc m fuel groups).length = min groups.length m := by
  intro fuel
  induction fuel with
  | zero =>
      intro groups hfuel
      have : groups.length ≤ m := by omega
      show groups.length = min groups.length m
      omega
  | succ f ih =>
      intro groups hfuel
      unfold mergeLoop
      split
      · rename_i hcond
        have h2 : 2 ≤ groups.length := by omega
        have hlen := mergeStep_length dist zc groups h2
        rw [ih (mergeStep dist zc groups) (by omega)]
        omega
      · rename_i hcond
        have : ¬ (m < groups.length) := fun h => hcond ⟨hm, h⟩
        omega

theorem initGroups_length (zc : List RGBA) : (initGroups zc).length = distinctCount zc := by
  obtain ⟨nd, memc, _, _, _⟩ := initGroups_inv zc
  have h1 : ((initGroups zc).map ColorGroup.color).toFinset = zc.toFinset := by
    ext c
    simp only [List.mem_toFinset]
    exact memc c
  have h2 := List.toFinset_card_of_nodup nd
  unfold distinctCount
  rw [← h1, h2, List.length_map]

theorem distinctCount_le (zc : List RGBA) : distinctCount zc ≤ zc.length :=
  List.toFinset_card_le zc

/-- The palette size formula of `ReduceColors`: with positive `maxColors` the
surviving group count is the minimum of the distinct-color count and
`maxColors`; with `maxColors = 0` it is the distinct-color count. -/
theorem reduceColors_entries_length (dist : RGBA → RGBA → ℚ) (zc : List RGBA) (m : ℕ)
    (hne : zc ≠ []) :
    (ReduceColors dist zc m).entries.length
      = if 0 < m then min (distinctCount zc) m else distinctCount zc := by
  unfold ReduceColors
  rw [if_neg hne]
  simp only [List.length_map, List.enum_length]
  by_cases hm : 0 < m
  · rw [if_pos hm]
    rw [mergeLoop_length dist zc m hm (zc.length + 1) (initGroups zc)
      (by have := distinctCount_le zc; rw [initGroups_length]; omega)]
    rw [initGroups_length]
  · rw [if_neg hm]
    have hm0 : m = 0 := by omega
    subst hm0
    rw [mergeLoop_zero, initGroups_length]

end Macoma

namespace Macoma

theorem getD_set_ne (zm : List ℕ) (j z v : ℕ) (h : z ≠ j) :
    (zm.set j v).getD z 0 = zm.getD z 0 := by
  rw [List.getD_eq_getElem?_getD, List.getD_eq_getElem?_getD, List.getElem?_set,
    if_neg (fun he => h he.symm)]

theorem getD_set_self (zm : List ℕ) (j v : ℕ) (h : j < zm.length) :
    (zm.set j v).getD j 0 = v := by
  rw [List.getD_eq_getElem?_getD, List.getElem?_set, if_pos rfl, if_pos h]
  rfl

theorem zmInner_length (gi : ℕ) : ∀ (ids : List ℕ) (zm : List ℕ),
    (zmInner gi zm ids).length = zm.length := by
  intro ids
  induction ids with
  | nil => intro zm; rfl
  | cons a t ih =>
      intro zm
      show (zmInner gi (zm.set a gi) t).length = zm.length
      rw [ih, List.length_set]

theorem zmInner_getD_ne (gi z : ℕ) : ∀ (ids : List ℕ) (zm : List ℕ), z ∉ ids →
    (zmInner gi zm ids).getD z 0 = zm.getD z 0 := by
  intro ids
  induction ids with
  | nil => intro zm _; rfl
  | cons a t ih =>
      intro zm hz
      show (zmInner gi (zm.set a gi) t).getD z 0 = zm.getD z 0
      rw [ih _ (fun h => hz (List.mem_cons_of_mem a h)),
        getD_set_ne zm a z gi (fun h => hz (h ▸ List.mem_cons_self a t))]

theorem zmInner_getD_mem (gi z : ℕ) : ∀ (ids : List ℕ) (zm : List ℕ), z ∈ ids →
    z < zm.length → (zmInner gi zm ids).getD z 0 = gi := by
  intro ids
  induction ids with
  | nil => intro zm hz _; simp at hz
  | cons a t ih =>
      intro zm hz hlen
      show (zmInner gi (zm.set a gi) t).getD z 0 = gi
      by_cases hzt : z ∈ t
      · exact ih _ hzt (by rw [List.length_set]; exact hlen)
      · have hza : z = a := by
          rcases List.mem_cons.mp hz with h | h
          · exact h
          · exact absurd h hzt
        subst hza
        rw [zmInner_getD_ne gi z t _ hzt]
        exact getD_set_self zm z gi hlen

theorem zmOuter_length : ∀ (qs : List (ℕ × ColorGroup)) (zm : List ℕ),
    (zmOuter zm qs).length = zm.length := by
  intro qs
  induction qs with
  | nil => intro zm; rfl
  | cons q t ih =>
      intro zm
      show (zmOuter (zmInner q.1 zm q.2.zoneIDs) t).length = zm.length
      rw [ih, zmInner_length]

theorem zmOuter_getD_ne (z : ℕ) : ∀ (qs : List (ℕ × ColorGroup)) (zm : List ℕ),
    (∀ q ∈ qs, z ∉ q.2.zoneIDs) → (zmOuter zm qs).getD z 0 = zm.getD z 0 := by
  intro qs
  induction qs with
  | nil => intro zm _; rfl
  | cons q t ih =>
      intro zm hq
      show (zmOuter (zmInner q.1 zm q.2.zoneIDs) t).getD z 0 = zm.getD z 0
      rw [ih _ (fun q' hq' => hq q' (List.mem_cons_of_mem q hq')),
        zmInner_getD_ne q.1 z q.2.zoneIDs zm (hq q (List.mem_cons_self q t))]

theorem zmOuter_getD_mem (z gi : ℕ) (g : ColorGroup)
    (qs₁ qs₂ : List (ℕ × ColorGroup)) (zm : List ℕ)
    (hmem : z ∈ g.zoneIDs) (hafter : ∀ q ∈ qs₂, z ∉ q.2.zoneIDs) (hlen : z < zm.length) :
    (zmOuter zm (qs₁ ++ (gi, g) :: qs₂)).getD z 0 = gi := by
  unfold zmOuter
  rw [List.foldl_append, List.foldl_cons]
  show (zmOuter (zmInner gi (zmOuter zm qs₁) g.zoneIDs) qs₂).getD z 0 = gi
  rw [zmOuter_getD_ne z qs₂ _ hafter]
  exact zmInner_getD_mem gi z g.zoneIDs _ hmem (by rw [zmOuter_length]; exact hlen)

theorem groups_unique_mem {n : ℕ} {groups : List ColorGroup}
    (hcnt : ∀ z : ℕ, (groups.flatMap ColorGroup.zoneIDs).count z = if z < n then 1 else 0)
    (z : ℕ) (hz : z < n) :
    ∃ k, ∃ hk : k < groups.length, z ∈ groups[k].zoneIDs ∧
      ∀ j (hj : j < groups.length), z ∈ groups[j].zoneIDs → j = k := by
  have h1 : (groups.flatMap ColorGroup.zoneIDs).count z = 1 := by
    rw [hcnt z]; exact if_pos hz
  rw [List.count_flatMap] at h1
  obtain ⟨i, hi, hone, hzero⟩ := sum_eq_one_unique _ h1
  have hi' : i < groups.length := by simpa using hi
  refine ⟨i, hi', ?_, ?_⟩
  · have : (groups.map (List.count z ∘ ColorGroup.zoneIDs))[i] = 1 := hone
    rw [List.getElem_map] at this
    have : 0 < (groups[i].zoneIDs).count z := by
      show 0 < (List.count z ∘ ColorGroup.zoneIDs) groups[i]
      omega
    exact List.count_pos_iff.mp this
  · intro j hj hjmem
    by_contra hne
    have hj' : j < (groups.map (List.count z ∘ ColorGroup.zoneIDs)).length := by simpa using hj
    have := hzero j hj' hne
    rw [List.getElem_map] at this
    have hpos : 0 < (groups[j].zoneIDs).count z := List.count_pos_iff.mpr hjmem
    have : (groups[j].zoneIDs).count z = 0 := this
    omega

theorem enum_decomp (groups : List ColorGroup) (k : ℕ) (hk : k < groups.length) :
    groups.enum = groups.enum.take k ++ (k, groups[k]) :: groups.enum.drop (k + 1) := by
  have hk' : k < groups.enum.length := by rw [List.enum_length]; exact hk
  have h1 : groups.enum[k] = (k, groups[k]) := List.getElem_enum groups k hk'
  conv_lhs => rw [← List.take_append_drop k groups.enum]
  congr 1
  rw [← List.getElem_cons_drop groups.enum k hk', h1]

theorem enum_drop_mem (groups : List ColorGroup) (k : ℕ) (q : ℕ × ColorGroup)
    (hq : q ∈ groups.enum.drop (k + 1)) :
    ∃ j, ∃ hj : j < groups.length, k + 1 ≤ j ∧ q = (j, groups[j]) := by
  obtain ⟨i, hi, hget⟩ := List.mem_iff_getElem.mp hq
  have hi2 : k + 1 + i < groups.enum.length := by
    rw [List.length_drop] at hi
    omega
  have hi3 : k + 1 + i < groups.length := by rw [List.enum_length] at hi2; exact hi2
  refine ⟨k + 1 + i, hi3, by omega, ?_⟩
  rw [← hget, List.getElem_drop, List.getElem_enum]

/-- Heart of the zone-map construction: for every in-range zone id the built
map points at the unique group containing it. -/
theorem buildZoneMap_spec {n : ℕ} {groups : List ColorGroup}
    (hcnt : ∀ z : ℕ, (groups.flatMap ColorGroup.zoneIDs).count z = if z < n then 1 else 0)
    (z : ℕ) (hz : z < n) :
    ∃ k, ∃ hk : k < groups.length,
      (buildZoneMap groups n).getD z 0 = k ∧ z ∈ groups[k].zoneIDs := by
  obtain ⟨k, hk, hmem, huniq⟩ := groups_unique_mem hcnt z hz
  refine ⟨k, hk, ?_, hmem⟩
  unfold buildZoneMap
  rw [enum_decomp groups k hk]
  apply zmOuter_getD_mem z k groups[k] _ _ _ hmem
  · intro q hq
    obtain ⟨j, hj, hjk, rfl⟩ := enum_drop_mem groups k q hq
    intro hcontra
    have := huniq j hj hcontra
    omega
  · rw [List.length_replicate]
    exact hz

end Macoma

namespace Macoma

theorem reduceColors_eq (dist : RGBA → RGBA → ℚ) (zc : List RGBA) (m : ℕ) (hne : zc ≠ []) :
    ReduceColors dist zc m =
      { entries := (mergeLoop dist zc m (zc.length + 1) (initGroups zc)).enum.map
          (fun ig => ⟨ig.1 + 1, ig.2.color⟩)
        zoneMap := buildZoneMap (mergeLoop dist zc m (zc.length + 1) (initGroups zc))
          zc.length } := by
  unfold ReduceColors
  rw [if_neg hne]

theorem entries_getD_color (groups : List ColorGroup) (k : ℕ) (hk : k < groups.length) :
    ((groups.enum.map (fun ig => (⟨ig.1 + 1, ig.2.color⟩ : ColorEntry))).getD k
        ⟨0, RGBA.zero⟩).color = groups[k].color := by
  have hk2 : k < (groups.enum.map
      (fun ig => (⟨ig.1 + 1, ig.2.color⟩ : ColorEntry))).length := by
    rw [List.length_map, List.enum_length]
    exact hk
  rw [List.getD_eq_getElem _ _ hk2, List.getElem_map, List.getElem_enum]

/-- C3: `ReduceColors` returns at most `maxColors` palette entries when
`maxColors > 0` and the zone count exceeds it; otherwise exactly one entry per
distinct input color.  Empty input yields an empty palette and zone map, and
`maxColors` at or above the distinct count performs no merging: the palette
then has exactly one entry per distinct input color. -/
theorem reduceColors_palette_size (dist : RGBA → RGBA → ℚ) (zoneColors : List RGBA)
    (maxColors : ℕ) :
    ReduceColors dist [] maxColors = ⟨[], []⟩ ∧
    (0 < maxColors → maxColors < zoneColors.length →
      (ReduceColors dist zoneColors maxColors).entries.length ≤ maxColors) ∧
    (distinctCount zoneColors ≤ maxColors →
      (ReduceColors dist zoneColors maxColors).entries.length = distinctCount zoneColors) ∧
    (¬(0 < maxColors ∧ maxColors < zoneColors.length) →
      (ReduceColors dist zoneColors maxColors).entries.length = distinctCount zoneColors) := by
  refine ⟨by simp [ReduceColors], ?_, ?_, ?_⟩
  · intro hm hlt
    have hne : zoneColors ≠ [] := by
      intro h
      subst h
      simp at hlt
    rw [reduceColors_entries_length dist _ _ hne, if_pos hm]
    exact min_le_right _ _
  · intro hdc
    by_cases hne : zoneColors = []
    · subst hne
      show (ReduceColors dist [] maxColors).entries.length = distinctCount []
      simp [ReduceColors, distinctCount]
    · rw [reduceColors_entries_length dist _ _ hne]
      by_cases hm : 0 < maxColors
      · rw [if_pos hm]
        omega
      · rw [if_neg hm]
  · intro hcond
    by_cases hne : zoneColors = []
    · subst hne
      show (ReduceColors dist [] maxColors).entries.length = distinctCount []
      simp [ReduceColors, distinctCount]
    · rw [reduceColors_entries_length dist _ _ hne]
      by_cases hm : 0 < maxColors
      · rw [if_pos hm]
        have hle : zoneColors.length ≤ maxColors := by
          rcases Nat.lt_or_ge maxColors zoneColors.length with h | h
          · exact absurd ⟨hm, h⟩ hcond
          · exact h
        have := distinctCount_le zoneColors
        omega
      · rw [if_neg hm]

/-- Witness for C3: three distinct colors reduced to 2 give at most 2 entries,
and two copies of one color with `maxColors = 1` are not merged — the palette
has exactly the 1 distinct color. -/
theorem reduceColors_palette_size_witness :
    ((0 < 2 ∧ 2 < [RGBA.mk 255 0 0 255, RGBA.mk 0 255 0 255, RGBA.mk 0 0 255 255].length) ∧
      (ReduceColors (fun _ _ => (0 : ℚ))
        [RGBA.mk 255 0 0 255, RGBA.mk 0 255 0 255, RGBA.mk 0 0 255 255] 2).entries.length ≤ 2) ∧
    (distinctCount [RGBA.mk 255 0 0 255, RGBA.mk 255 0 0 255] ≤ 1 ∧
      (ReduceColors (fun _ _ => (0 : ℚ))
        [RGBA.mk 255 0 0 255, RGBA.mk 255 0 0 255] 1).entries.length
        = distinctCount [RGBA.mk 255 0 0 255, RGBA.mk 255 0 0 255]) :=
  ⟨⟨⟨by decide, by decide⟩,
    (reduceColors_palette_size (fun _ _ => (0 : ℚ))
      [RGBA.mk 255 0 0 255, RGBA.mk 0 255 0 255, RGBA.mk 0 0 255 255] 2).2.1
      (by decide) (by decide)⟩,
   ⟨by decide,
    (reduceColors_palette_size (fun _ _ => (0 : ℚ))
      [RGBA.mk 255 0 0 255, RGBA.mk 255 0 0 255] 1).2.2.1 (by decide)⟩⟩

/-- C9: the merge loop terminates — each iteration removes exactly one group —
and for positive `maxColors` on non-empty input the final palette size is
exactly the minimum of the distinct-color count and `maxColors`.  (In this
embedding the loop is fuel-indexed; `mergeStep_length` is the one-group-per-
iteration fact that bounds the iteration count and makes the supplied fuel
sufficient, so the Go loop terminates.) -/
theorem reduceColors_exact_min (dist : RGBA → RGBA → ℚ) (zoneColors : List RGBA)
    (maxColors : ℕ) (hne : zoneColors ≠ []) (hm : 0 < maxColors) :
    (∀ groups : List ColorGroup, 2 ≤ groups.length →
      (mergeStep dist zoneColors groups).length + 1 = groups.length) ∧
    (ReduceColors dist zoneColors maxColors).entries.length
      = min (distinctCount zoneColors) maxColors := by
  refine ⟨fun groups h2 => mergeStep_length dist zoneColors groups h2, ?_⟩
  rw [reduceColors_entries_length dist zoneColors maxColors hne, if_pos hm]

/-- Witness for C9: two distinct colors among three zones, reduced to 1. -/
theorem reduceColors_exact_min_witness :
    ((0 : ℕ) < 1) ∧
    (ReduceColors (fun _ _ => (0 : ℚ))
        [RGBA.mk 255 0 0 255, RGBA.mk 0 255 0 255, RGBA.mk 255 0 0 255] 1).entries.length
      = min (distinctCount [RGBA.mk 255 0 0 255, RGBA.mk 0 255 0 255, RGBA.mk 255 0 0 255]) 1 :=
  ⟨by decide,
    (reduceColors_exact_min (fun _ _ => (0 : ℚ))
      [RGBA.mk 255 0 0 255, RGBA.mk 0 255 0 255, RGBA.mk 255 0 0 255] 1
      (by decide) (by decide)).2⟩

/-- C7: for non-empty input the zone map has one in-range entry index per zone
id, and every palette entry is referenced by at least one zone. -/
theorem reduceColors_zoneMap_total (dist : RGBA → RGBA → ℚ) (zoneColors : List RGBA)
    (maxColors : ℕ) (hne : zoneColors ≠ []) :
    (ReduceColors dist zoneColors maxColors).zoneMap.length = zoneColors.length ∧
    (∀ z, z < zoneColors.length →
      (ReduceColors dist zoneColors maxColors).zoneMap.getD z 0
        < (ReduceColors dist zoneColors maxColors).entries.length) ∧
    (∀ e, e < (ReduceColors dist zoneColors maxColors).entries.length →
      ∃ z, z < zoneColors.length ∧
        (ReduceColors dist zoneColors maxColors).zoneMap.getD z 0 = e) := by
  have hwf : GroupsWF zoneColors.length
      (mergeLoop dist zoneColors maxColors (zoneColors.length + 1) (initGroups zoneColors)) :=
    mergeLoop_wf dist zoneColors maxColors _ _ (initGroups_wf zoneColors)
  set G := mergeLoop dist zoneColors maxColors (zoneColors.length + 1)
    (initGroups zoneColors) with hG
  have hred := reduceColors_eq dist zoneColors maxColors hne
  refine ⟨?_, ?_, ?_⟩
  · rw [hred]
    show (buildZoneMap G zoneColors.length).length = zoneColors.length
    unfold buildZoneMap
    rw [zmOuter_length, List.length_replicate]
  · intro z hz
    obtain ⟨k, hk, hget, hmem⟩ := buildZoneMap_spec hwf.2 z hz
    rw [hred]
    show (buildZoneMap G zoneColors.length).getD z 0
      < (G.enum.map (fun ig => (⟨ig.1 + 1, ig.2.color⟩ : ColorEntry))).length
    rw [hget, List.length_map, List.enum_length]
    exact hk
  · intro e he
    rw [hred] at he ⊢
    have he' : e < G.length := by
      rw [List.length_map, List.enum_length] at he
      exact he
    have hnonempty := hwf.1 G[e] (List.getElem_mem he')
    obtain ⟨z, hzmem⟩ := List.exists_mem_of_ne_nil _ hnonempty
    have hzlt : z < zoneColors.length := by
      have hpos : 0 < (G.flatMap ColorGroup.zoneIDs).count z :=
        List.count_pos_iff.mpr (List.mem_flatMap.mpr ⟨G[e], List.getElem_mem he', hzmem⟩)
      by_contra hcontra
      rw [hwf.2 z, if_neg hcontra] at hpos
      omega
    obtain ⟨k, hk, hget, hmem⟩ := buildZoneMap_spec hwf.2 z hzlt
    obtain ⟨k', hk', hmem', huniq⟩ := groups_unique_mem hwf.2 z hzlt
    have he2 : e = k' := huniq e he' hzmem
    have hk2 : k = k' := huniq k hk hmem
    refine ⟨z, hzlt, ?_⟩
    show (buildZoneMap G zoneColors.length).getD z 0 = e
    rw [hget]
    omega

/-- Witness for C7 at two zones, two colors, `maxColors = 1`. -/
theorem reduceColors_zoneMap_total_witness :
    ([RGBA.mk 255 0 0 255, RGBA.mk 0 255 0 255] ≠ []) ∧
    (ReduceColors (fun _ _ => (0 : ℚ))
      [RGBA.mk 255 0 0 255, RGBA.mk 0 255 0 255] 1).zoneMap.length
      = [RGBA.mk 255 0 0 255, RGBA.mk 0 255 0 255].length :=
  ⟨by decide,
    (reduceColors_zoneMap_total (fun _ _ => (0 : ℚ))
      [RGBA.mk 255 0 0 255, RGBA.mk 0 255 0 255] 1 (by decide)).1⟩

end Macoma

namespace Macoma

/-- C5: with `maxColors = 0`, `ReduceColors` yields one palette entry per
distinct input color, two zones map to the same palette index exactly when
their input colors are bit-identical, and each zone's mapped entry carries the
zone's own input color. -/
theorem reduceColors_zero_roundtrip (dist : RGBA → RGBA → ℚ) (zoneColors : List RGBA) :
    (ReduceColors dist zoneColors 0).entries.length = distinctCount zoneColors ∧
    (ReduceColors dist zoneColors 0).zoneMap.length = zoneColors.length ∧
    (∀ z1 z2, z1 < zoneColors.length → z2 < zoneColors.length →
      ((ReduceColors dist zoneColors 0).zoneMap.getD z1 0
          = (ReduceColors dist zoneColors 0).zoneMap.getD z2 0
        ↔ zoneColors.getD z1 RGBA.zero = zoneColors.getD z2 RGBA.zero)) ∧
    (∀ z, z < zoneColors.length →
      ((ReduceColors dist zoneColors 0).entries.getD
          ((ReduceColors dist zoneColors 0).zoneMap.getD z 0) ⟨0, RGBA.zero⟩).color
        = zoneColors.getD z RGBA.zero) := by
  by_cases hne : zoneColors = []
  · subst hne
    refine ⟨by simp [ReduceColors, distinctCount], by simp [ReduceColors], ?_, ?_⟩
    · intro z1 z2 h1 _
      simp at h1
    · intro z h
      simp at h
  · have hred := reduceColors_eq dist zoneColors 0 hne
    rw [mergeLoop_zero] at hred
    obtain ⟨nd, memc, miff, nonemp, cnt⟩ := initGroups_inv zoneColors
    set G := initGroups zoneColors with hG
    have color_inj : ∀ k1 k2 (h1 : k1 < G.length) (h2 : k2 < G.length),
        G[k1].color = G[k2].color → k1 = k2 := by
      intro k1 k2 h1 h2 hc
      by_contra hne12
      have h1' : k1 < (G.map ColorGroup.color).length := by simpa using h1
      have h2' : k2 < (G.map ColorGroup.color).length := by simpa using h2
      have hg1 : (G.map ColorGroup.color)[k1] = G[k1].color := List.getElem_map _
      have hg2 : (G.map ColorGroup.color)[k2] = G[k2].color := List.getElem_map _
      rcases Nat.lt_or_ge k1 k2 with h | h
      · have := (List.pairwise_iff_getElem.mp nd) k1 k2 h1' h2' h
        rw [hg1, hg2] at this
        exact this hc
      · have hlt : k2 < k1 := lt_of_le_of_ne h (fun he => hne12 he.symm)
        have := (List.pairwise_iff_getElem.mp nd) k2 k1 h2' h1' hlt
        rw [hg1, hg2] at this
        exact this hc.symm
    refine ⟨?_, ?_, ?_, ?_⟩
    · rw [hred]
      show (G.enum.map (fun ig => (⟨ig.1 + 1, ig.2.color⟩ : ColorEntry))).length
        = distinctCount zoneColors
      rw [List.length_map, List.enum_length, hG, initGroups_length]
    · rw [hred]
      show (buildZoneMap G zoneColors.length).length = zoneColors.length
      unfold buildZoneMap
      rw [zmOuter_length, List.length_replicate]
    · intro z1 z2 h1 h2
      obtain ⟨k1, hk1, hget1, hmem1⟩ := buildZoneMap_spec cnt z1 h1
      obtain ⟨k2, hk2, hget2, hmem2⟩ := buildZoneMap_spec cnt z2 h2
      have hc1 : zoneColors.getD z1 RGBA.zero = G[k1].color := ((miff k1 hk1 z1).mp hmem1).2
      have hc2 : zoneColors.getD z2 RGBA.zero = G[k2].color := ((miff k2 hk2 z2).mp hmem2).2
      rw [hred]
      show (buildZoneMap G zoneColors.length).getD z1 0
          = (buildZoneMap G zoneColors.length).getD z2 0 ↔ _
      rw [hget1, hget2]
      constructor
      · intro hk
        subst hk
        rw [hc1, hc2]
      · intro hc
        apply color_inj k1 k2 hk1 hk2
        rw [← hc1, ← hc2, hc]
    · intro z hz
      obtain ⟨k, hk, hget, hmem⟩ := buildZoneMap_spec cnt z hz
      have hc : zoneColors.getD z RGBA.zero = G[k].color := ((miff k hk z).mp hmem).2
      rw [hred]
      show ((G.enum.map (fun ig => (⟨ig.1 + 1, ig.2.color⟩ : ColorEntry))).getD
          ((buildZoneMap G zoneColors.length).getD z 0) ⟨0, RGBA.zero⟩).color = _
      rw [hget, entries_getD_color G k hk, hc]

/-- Witness for C5: three zones, two distinct colors, `maxColors = 0`. -/
theorem reduceColors_zero_roundtrip_witness :
    ((0 : ℕ) < 3 ∧ (2 : ℕ) < 3) ∧
    ((ReduceColors (fun _ _ => (0 : ℚ))
        [RGBA.mk 255 0 0 255, RGBA.mk 0 255 0 255, RGBA.mk 255 0 0 255] 0).zoneMap.getD 0 0
      = (ReduceColors (fun _ _ => (0 : ℚ))
        [RGBA.mk 255 0 0 255, RGBA.mk 0 255 0 255, RGBA.mk 255 0 0 255] 0).zoneMap.getD 2 0
      ↔ [RGBA.mk 255 0 0 255, RGBA.mk 0 255 0 255, RGBA.mk 255 0 0 255].getD 0 RGBA.zero
        = [RGBA.mk 255 0 0 255, RGBA.mk 0 255 0 255, RGBA.mk 255 0 0 255].getD 2 RGBA.zero) :=
  ⟨⟨by decide, by decide⟩,
    (reduceColors_zero_roundtrip (fun _ _ => (0 : ℚ))
      [RGBA.mk 255 0 0 255, RGBA.mk 0 255 0 255, RGBA.mk 255 0 0 255]).2.2.1 0 2
      (by decide) (by decide)⟩

end Macoma

namespace Macoma

/-! ## Properties of the boundary classifier -/

/-- The maximum of a list of integers (0 for the empty list, never used). -/
def specMax : List ℤ → ℤ
  | [] => 0
  | v :: t => t.foldl max v

/-- The minimum of a list of integers (0 for the empty list, never used). -/
def specMin : List ℤ → ℤ
  | [] => 0
  | v :: t => t.foldl min v

/-- One per-channel range (max minus min) over the clamped 5×5 window, as the
specification words it. -/
def chanRange (img : Image) (f : RGBA → Fin 256) (x y : ℕ) : ℤ :=
  specMax (winVals img f x y) - specMin (winVals img f x y)

theorem foldl_max_le : ∀ (t : List ℤ) (a : ℤ),
    a ≤ t.foldl max a ∧ ∀ v ∈ t, v ≤ t.foldl max a := by
  intro t
  induction t with
  | nil => intro a; exact ⟨le_refl a, by simp⟩
  | cons v s ih =>
      intro a
      rw [List.foldl_cons]
      obtain ⟨h1, h2⟩ := ih (max a v)
      refine ⟨le_trans (le_max_left a v) h1, ?_⟩
      intro u hu
      rcases List.mem_cons.mp hu with rfl | hu'
      · exact le_trans (le_max_right a u) h1
      · exact h2 u hu'

theorem foldl_max_mem : ∀ (t : List ℤ) (a : ℤ), t.foldl max a = a ∨ t.foldl max a ∈ t := by
  intro t
  induction t with
  | nil => intro a; exact Or.inl rfl
  | cons v s ih =>
      intro a
      rw [List.foldl_cons]
      rcases ih (max a v) with h | h
      · rcases max_choice a v with hm | hm
        · exact Or.inl (by rw [h, hm])
        · exact Or.inr (by rw [h, hm]; exact List.mem_cons_self v s)
      · exact Or.inr (List.mem_cons_of_mem v h)

theorem foldl_min_ge : ∀ (t : List ℤ) (a : ℤ),
    t.foldl min a ≤ a ∧ ∀ v ∈ t, t.foldl min a ≤ v := by
  intro t
  induction t with
  | nil => intro a; exact ⟨le_refl a, by simp⟩
  | cons v s ih =>
      intro a
      rw [List.foldl_cons]
      obtain ⟨h1, h2⟩ := ih (min a v)
      refine ⟨le_trans h1 (min_le_left a v), ?_⟩
      intro u hu
      rcases List.mem_cons.mp hu with rfl | hu'
      · exact le_trans h1 (min_le_right a u)
      · exact h2 u hu'

theorem foldl_min_mem : ∀ (t : List ℤ) (a : ℤ), t.foldl min a = a ∨ t.foldl min a ∈ t := by
  intro t
  induction t with
  | nil => intro a; exact Or.inl rfl
  | cons v s ih =>
      intro a
      rw [List.foldl_cons]
      rcases ih (min a v) with h | h
      · rcases min_choice a v with hm | hm
        · exact Or.inl (by rw [h, hm])
        · exact Or.inr (by rw [h, hm]; exact List.mem_cons_self v s)
      · exact Or.inr (List.mem_cons_of_mem v h)

/-- `specMax` really is the maximum of a non-empty list. -/
theorem specMax_is_max (l : List ℤ) (hne : l ≠ []) :
    specMax l ∈ l ∧ ∀ v ∈ l, v ≤ specMax l := by
  cases l with
  | nil => exact absurd rfl hne
  | cons v t =>
      simp only [specMax]
      obtain ⟨h1, h2⟩ := foldl_max_le t v
      constructor
      · rcases foldl_max_mem t v with h | h
        · rw [h]; exact List.mem_cons_self v t
        · exact List.mem_cons_of_mem v h
      · intro u hu
        rcases List.mem_cons.mp hu with rfl | hu'
        · exact h1
        · exact h2 u hu'

/-- `specMin` really is the minimum of a non-empty list. -/
theorem specMin_is_min (l : List ℤ) (hne : l ≠ []) :
    specMin l ∈ l ∧ ∀ v ∈ l, specMin l ≤ v := by
  cases l with
  | nil => exact absurd rfl hne
  | cons v t =>
      simp only [specMin]
      obtain ⟨h1, h2⟩ := foldl_min_ge t v
      constructor
      · rcases foldl_min_mem t v with h | h
        · rw [h]; exact List.mem_cons_self v t
        · exact List.mem_cons_of_mem v h
      · intro u hu
        rcases List.mem_cons.mp hu with rfl | hu'
        · exact h1
        · exact h2 u hu'

theorem foldl_max_zero_eq (l : List ℤ) (hne : l ≠ []) (h : ∀ v ∈ l, 0 ≤ v) :
    l.foldl max 0 = specMax l := by
  cases l with
  | nil => exact absurd rfl hne
  | cons v t =>
      rw [List.foldl_cons]
      simp only [specMax]
      rw [max_eq_right (h v (List.mem_cons_self v t))]

theorem foldl_min_255_eq (l : List ℤ) (hne : l ≠ []) (h : ∀ v ∈ l, v ≤ 255) :
    l.foldl min 255 = specMin l := by
  cases l with
  | nil => exact absurd rfl hne
  | cons v t =>
      rw [List.foldl_cons]
      simp only [specMin]
      rw [min_eq_right (h v (List.mem_cons_self v t))]

theorem mem_window_self {w h x y : ℕ} (hx : x < w) (hy : y < h) :
    (x, y) ∈ window w h x y := by
  unfold window
  apply List.mem_flatMap.mpr
  refine ⟨y - (y - 2), List.mem_range.mpr (by omega), ?_⟩
  apply List.mem_map.mpr
  refine ⟨x - (x - 2), List.mem_range.mpr (by omega), ?_⟩
  have e1 : x - 2 + (x - (x - 2)) = x := by omega
  have e2 : y - 2 + (y - (y - 2)) = y := by omega
  rw [e1, e2]

theorem winVals_ne {img : Image} {f : RGBA → Fin 256} {x y : ℕ}
    (hx : x < img.width) (hy : y < img.height) : winVals img f x y ≠ [] := by
  unfold winVals
  intro hcontra
  rw [List.map_eq_nil_iff] at hcontra
  have := mem_window_self hx hy
  rw [hcontra] at this
  simp at this

theorem winVals_bounds (img : Image) (f : RGBA → Fin 256) (x y : ℕ) :
    ∀ v ∈ winVals img f x y, 0 ≤ v ∧ v ≤ 255 := by
  intro v hv
  obtain ⟨p, _, rfl⟩ := List.mem_map.mp hv
  have h := (f (img.pix p.1 p.2)).isLt
  constructor
  · positivity
  · exact_mod_cast Nat.lt_succ_iff.mp h

theorem detectAt_iff (img : Image) (threshold : ℤ) (x y : ℕ)
    (hx : x < img.width) (hy : y < img.height) :
    detectAt img threshold x y = true ↔
      threshold < max (chanRange img RGBA.R x y)
        (max (chanRange img RGBA.G x y) (chanRange img RGBA.B x y)) := by
  unfold detectAt
  rw [decide_eq_true_iff]
  have hR := winVals_ne (f := RGBA.R) hx hy
  have hG := winVals_ne (f := RGBA.G) hx hy
  have hB := winVals_ne (f := RGBA.B) hx hy
  rw [foldl_max_zero_eq _ hR (fun v hv => (winVals_bounds img RGBA.R x y v hv).1),
    foldl_min_255_eq _ hR (fun v hv => (winVals_bounds img RGBA.R x y v hv).2),
    foldl_max_zero_eq _ hG (fun v hv => (winVals_bounds img RGBA.G x y v hv).1),
    foldl_min_255_eq _ hG (fun v hv => (winVals_bounds img RGBA.G x y v hv).2),
    foldl_max_zero_eq _ hB (fun v hv => (winVals_bounds img RGBA.B x y v hv).1),
    foldl_min_255_eq _ hB (fun v hv => (winVals_bounds img RGBA.B x y v hv).2)]
  rfl

end Macoma

namespace Macoma

theorem foldl_max_id (c : ℤ) : ∀ l : List ℤ, (∀ v ∈ l, v = c) → l.foldl max c = c := by
  intro l
  induction l with
  | nil => intro _; rfl
  | cons v s ih =>
      intro h
      rw [List.foldl_cons, h v (List.mem_cons_self v s), max_self]
      exact ih (fun u hu => h u (List.mem_cons_of_mem v hu))

theorem foldl_min_id (c : ℤ) : ∀ l : List ℤ, (∀ v ∈ l, v = c) → l.foldl min c = c := by
  intro l
  induction l with
  | nil => intro _; rfl
  | cons v s ih =>
      intro h
      rw [List.foldl_cons, h v (List.mem_cons_self v s), min_self]
      exact ih (fun u hu => h u (List.mem_cons_of_mem v hu))

theorem specMax_const (l : List ℤ) (c : ℤ) (hne : l ≠ []) (h : ∀ v ∈ l, v = c) :
    specMax l = c := by
  cases l with
  | nil => exact absurd rfl hne
  | cons v t =>
      simp only [specMax]
      rw [h v (List.mem_cons_self v t)]
      exact foldl_max_id c t (fun u hu => h u (List.mem_cons_of_mem v hu))

theorem specMin_const (l : List ℤ) (c : ℤ) (hne : l ≠ []) (h : ∀ v ∈ l, v = c) :
    specMin l = c := by
  cases l with
  | nil => exact absurd rfl hne
  | cons v t =>
      simp only [specMin]
      rw [h v (List.mem_cons_self v t)]
      exact foldl_min_id c t (fun u hu => h u (List.mem_cons_of_mem v hu))

theorem chanRange_uniform (img : Image) (f : RGBA → Fin 256) (x y : ℕ)
    (hx : x < img.width) (hy : y < img.height)
    (huni : ∀ a b, img.pix a b = img.pix 0 0) : chanRange img f x y = 0 := by
  have hval : ∀ v ∈ winVals img f x y, v = ((f (img.pix 0 0) : ℕ) : ℤ) := by
    intro v hv
    obtain ⟨p, _, rfl⟩ := List.mem_map.mp hv
    rw [huni p.1 p.2]
  unfold chanRange
  rw [specMax_const _ _ (winVals_ne hx hy) hval, specMin_const _ _ (winVals_ne hx hy) hval]
  omega

/-- C4: `ColorDelimiter.Detect` marks a pixel as boundary exactly when the
largest of the three per-channel ranges over its clamped 5×5 window strictly
exceeds `(tolerancePct/100) × 255`; consequently a uniform image with positive
tolerance yields zero boundary pixels.  (The source compares the integer range
against the truncated integer threshold `int(t/100*255)`; since the ranges are
integers, exceeding the truncated threshold is equivalent to exceeding the
exact rational one, which the first conjunct states.) -/
theorem colorDelimiter_spec (img : Image) (t : ℚ) (ht0 : 0 ≤ t) :
    (∀ x y, x < img.width → y < img.height →
      ((ColorDelimiterDetect t img).isDelimiter (y * img.width + x) = true ↔
        t / 100 * 255 <
          ((max (chanRange img RGBA.R x y)
            (max (chanRange img RGBA.G x y) (chanRange img RGBA.B x y)) : ℤ) : ℚ))) ∧
    (0 < t → (∀ x y, img.pix x y = img.pix 0 0) →
      ∀ i, (ColorDelimiterDetect t img).isDelimiter i = false) := by
  have hq0 : (0 : ℚ) ≤ t / 100 * 255 := by positivity
  have hthr : goTrunc (t / 100 * 255) = ⌊t / 100 * 255⌋ := by
    unfold goTrunc
    rw [if_neg (not_lt.mpr hq0)]
  constructor
  · intro x y hx hy
    have hw : 0 < img.width := by omega
    have hi : y * img.width + x < img.width * img.height := by
      have h1 : y * img.width + x < (y + 1) * img.width := by
        rw [Nat.succ_mul]; omega
      have h2 : (y + 1) * img.width ≤ img.height * img.width :=
        Nat.mul_le_mul_right _ hy
      calc y * img.width + x < (y + 1) * img.width := h1
        _ ≤ img.height * img.width := h2
        _ = img.width * img.height := Nat.mul_comm _ _
    show (if y * img.width + x < img.width * img.height then
        detectAt img (goTrunc (t / 100 * 255)) ((y * img.width + x) % img.width)
          ((y * img.width + x) / img.width) else false) = true ↔ _
    rw [if_pos hi]
    have hmod : (y * img.width + x) % img.width = x := by
      rw [Nat.add_comm, Nat.add_mul_mod_self_right, Nat.mod_eq_of_lt hx]
    have hdiv : (y * img.width + x) / img.width = y := by
      rw [Nat.add_comm, Nat.add_mul_div_right _ _ hw, Nat.div_eq_of_lt hx]
      omega
    rw [hmod, hdiv, detectAt_iff img _ x y hx hy, hthr]
    exact Int.floor_lt
  · intro htpos huni i
    show (if i < img.width * img.height then
        detectAt img (goTrunc (t / 100 * 255)) (i % img.width) (i / img.width)
      else false) = false
    by_cases hi : i < img.width * img.height
    · rw [if_pos hi]
      have hw : 0 < img.width := by
        rcases Nat.eq_zero_or_pos img.width with h | h
        · rw [h] at hi; simp at hi
        · exact h
      have hx : i % img.width < img.width := Nat.mod_lt _ hw
      have hy : i / img.width < img.height := by
        rw [Nat.div_lt_iff_lt_mul hw]
        rw [Nat.mul_comm]
        exact hi
      rw [← Bool.not_eq_true, detectAt_iff img _ _ _ hx hy]
      rw [chanRange_uniform img RGBA.R _ _ hx hy huni,
        chanRange_uniform img RGBA.G _ _ hx hy huni,
        chanRange_uniform img RGBA.B _ _ hx hy huni]
      have hthr0 : 0 ≤ goTrunc (t / 100 * 255) := by
        rw [hthr]
        exact Int.le_floor.mpr (by push_cast; linarith)
      omega
    · rw [if_neg hi]

/-- Witness for C4: a uniform 3×3 image at tolerance 50 has no boundary pixel. -/
theorem colorDelimiter_spec_witness :
    ((0 : ℚ) ≤ 50 ∧ (0 : ℚ) < 50) ∧
    (ColorDelimiterDetect 50
      ⟨3, 3, fun _ _ => RGBA.mk 10 20 30 255⟩).isDelimiter 0 = false :=
  ⟨⟨by norm_num, by norm_num⟩,
    (colorDelimiter_spec ⟨3, 3, fun _ _ => RGBA.mk 10 20 30 255⟩ 50 (by norm_num)).2
      (by norm_num) (fun _ _ => rfl) 0⟩

end Macoma

namespace Macoma

/-! ## Properties of the region segmenter -/

/-- Number of unlabeled filler cells: the decreasing measure of the BFS. -/
def unlab (dm : DetectionMap) (labels : ℕ → ℤ) : ℕ :=
  (List.range (dm.width * dm.height)).countP
    (fun j => !dm.isDelimiter j && decide (labels j = -1))

theorem countP_update {α : Type} [DecidableEq α] (p q : α → Bool) :
    ∀ (l : List α), l.Nodup → ∀ j ∈ l, p j = true → q j = false →
    (∀ k ∈ l, k ≠ j → p k = q k) → l.countP q + 1 = l.countP p := by
  intro l
  induction l with
  | nil => intro _ j hj; simp at hj
  | cons a t ih =>
      intro hnd j hj hp hq hagree
      have hat : a ∉ t := (List.nodup_cons.mp hnd).1
      have hndt : t.Nodup := (List.nodup_cons.mp hnd).2
      rw [List.countP_cons, List.countP_cons]
      rcases List.mem_cons.mp hj with rfl | hjt
      · rw [hp, hq]
        have h' : t.countP p = t.countP q := by
          apply List.countP_congr
          intro x hx
          rw [hagree x (List.mem_cons_of_mem _ hx) (fun he => hat (he ▸ hx))]
        simp [h']
      · have haj : a ≠ j := fun he => hat (he ▸ hjt)
        rw [hagree a (List.mem_cons_self a t) haj]
        have := ih hndt j hjt hp hq
          (fun k hk hkj => hagree k (List.mem_cons_of_mem _ hk) hkj)
        by_cases hqa : q a = true
        · rw [hqa]; omega
        · rw [Bool.not_eq_true] at hqa; rw [hqa]; omega

theorem unlab_set (dm : DetectionMap) (labels : ℕ → ℤ) (j : ℕ) (v : ℤ)
    (hj : j < dm.width * dm.height) (hdelim : dm.isDelimiter j = false)
    (hlab : labels j = -1) (hv : v ≠ -1) :
    unlab dm (setL labels j v) + 1 = unlab dm labels := by
  unfold unlab
  apply countP_update _ _ _ (List.nodup_range _) j (List.mem_range.mpr hj)
  · rw [hdelim, hlab]; simp
  · show (!dm.isDelimiter j && decide (setL labels j v j = -1)) = false
    have : setL labels j v j = v := by unfold setL; rw [if_pos rfl]
    rw [this]
    simp [hv]
  · intro k _ hkj
    have hk : setL labels j v k = labels k := by unfold setL; rw [if_neg hkj]
    show (!dm.isDelimiter k && decide (labels k = -1))
      = (!dm.isDelimiter k && decide (setL labels j v k = -1))
    rw [hk]

end Macoma

namespace Macoma

theorem ptIdx_lt {dm : DetectionMap} {p : Pt} (h : InRange dm p) :
    ptIdx dm.width p < dm.width * dm.height := by
  obtain ⟨h1, h2, h3, h4⟩ := h
  unfold ptIdx
  rw [Int.toNat_lt (by nlinarith)]
  have hle : p.2 ≤ (dm.height : ℤ) - 1 := by omega
  have hw0 : (0 : ℤ) ≤ (dm.width : ℤ) := by positivity
  have : p.2 * (dm.width : ℤ) ≤ ((dm.height : ℤ) - 1) * dm.width :=
    mul_le_mul_of_nonneg_right hle hw0
  push_cast
  nlinarith

theorem ptIdx_inj {dm : DetectionMap} {p q : Pt} (hp : InRange dm p) (hq : InRange dm q)
    (h : ptIdx dm.width p = ptIdx dm.width q) : p = q := by
  obtain ⟨hp1, hp2, hp3, hp4⟩ := hp
  obtain ⟨hq1, hq2, hq3, hq4⟩ := hq
  have hw : (0 : ℤ) < dm.width := by omega
  have hz : p.2 * (dm.width : ℤ) + p.1 = q.2 * dm.width + q.1 := by
    have e1 : (0 : ℤ) ≤ p.2 * dm.width + p.1 := by nlinarith
    have e2 : (0 : ℤ) ≤ q.2 * dm.width + q.1 := by nlinarith
    unfold ptIdx at h
    have := congrArg (fun n : ℕ => (n : ℤ)) h
    simpa [Int.toNat_of_nonneg e1, Int.toNat_of_nonneg e2] using this
  have hdiv : ∀ a b : ℤ, 0 ≤ a → a < dm.width → (a + b * dm.width) / dm.width = b := by
    intro a b ha hab
    rw [Int.add_mul_ediv_right _ _ (by omega), Int.ediv_eq_zero_of_lt ha hab]
    omega
  have hy : p.2 = q.2 := by
    have l1 := hdiv p.1 p.2 hp1 hp2
    have l2 := hdiv q.1 q.2 hq1 hq2
    rw [show p.1 + p.2 * (dm.width : ℤ) = p.2 * dm.width + p.1 from by ring] at l1
    rw [show q.1 + q.2 * (dm.width : ℤ) = q.2 * dm.width + q.1 from by ring] at l2
    rw [← l1, ← l2, hz]
  have hx : p.1 = q.1 := by
    have := hz
    rw [hy] at this
    omega
  exact Prod.ext hx hy

theorem ptIdx_seed (w : ℕ) (i : ℕ) :
    ptIdx w (((i % w : ℕ) : ℤ), ((i / w : ℕ) : ℤ)) = i := by
  unfold ptIdx
  have h : ((i / w : ℕ) : ℤ) * (w : ℤ) + ((i % w : ℕ) : ℤ)
      = ((i / w * w + i % w : ℕ) : ℤ) := by
    push_cast
    ring
  rw [h, Int.toNat_natCast, Nat.mul_comm (i / w) w]
  exact Nat.div_add_mod i w

/-- The inductive invariant of one BFS flood fill for zone `zid`, over the
current label grid and the cells collected so far (emitted pixels followed by
the queue): labels differ from the pre-fill grid `L0` only by writing `zid`
over `-1`; collected cells are in range, non-delimiter, labeled `zid`, and are
exactly the cells labeled `zid`, each collected once. -/
structure FInv (dm : DetectionMap) (zid : ℕ) (L0 : ℕ → ℤ) (labels : ℕ → ℤ)
    (cells : List Pt) : Prop where
  frame : ∀ j, labels j ≠ L0 j → labels j = (zid : ℤ) ∧ L0 j = -1
  mem_range : ∀ p ∈ cells, InRange dm p
  mem_ndelim : ∀ p ∈ cells, dm.isDelimiter (ptIdx dm.width p) = false
  mem_label : ∀ p ∈ cells, labels (ptIdx dm.width p) = (zid : ℤ)
  label_mem : ∀ j, labels j = (zid : ℤ) → ∃ p ∈ cells, ptIdx dm.width p = j
  cells_nodup : (cells.map (ptIdx dm.width)).Nodup

theorem tryEnqueue_inv {dm : DetectionMap} {zid : ℕ} {L0 : ℕ → ℤ}
    (labels : ℕ → ℤ) (queue pixels : List Pt) (q : Pt)
    (hinv : FInv dm zid L0 labels (pixels ++ queue)) :
    FInv dm zid L0 (tryEnqueue dm zid (labels, queue) q).1
      (pixels ++ (tryEnqueue dm zid (labels, queue) q).2) := by
  unfold tryEnqueue
  by_cases hb : q.1 < 0 ∨ (dm.width : ℤ) ≤ q.1 ∨ q.2 < 0 ∨ (dm.height : ℤ) ≤ q.2
  · rw [if_pos hb]; exact hinv
  · rw [if_neg hb]
    push_neg at hb
    have hqr : InRange dm q := ⟨hb.1, hb.2.1, hb.2.2.1, hb.2.2.2⟩
    by_cases hc : dm.isDelimiter (ptIdx dm.width q) = true ∨ labels (ptIdx dm.width q) ≠ -1
    · rw [if_pos hc]; exact hinv
    · rw [if_neg hc]
      push_neg at hc
      obtain ⟨hqd', hql⟩ := hc
      have hqd : dm.isDelimiter (ptIdx dm.width q) = false := by simpa using hqd'
      have hzne : (zid : ℤ) ≠ -1 := by omega
      show FInv dm zid L0 (setL labels (ptIdx dm.width q) (zid : ℤ))
        (pixels ++ (queue ++ [q]))
      have hnotmem : ∀ p ∈ pixels ++ queue, ptIdx dm.width p ≠ ptIdx dm.width q := by
        intro p hp he
        have := hinv.mem_label p hp
        rw [he, hql] at this
        exact hzne this.symm
      constructor
      · intro j hj
        by_cases hjq : j = ptIdx dm.width q
        · subst hjq
          constructor
          · show setL labels (ptIdx dm.width q) (zid : ℤ) (ptIdx dm.width q) = (zid : ℤ)
            unfold setL; rw [if_pos rfl]
          · by_cases hsame : labels (ptIdx dm.width q) = L0 (ptIdx dm.width q)
            · rw [← hsame]; exact hql
            · exact (hinv.frame _ hsame).2
        · have : setL labels (ptIdx dm.width q) (zid : ℤ) j = labels j := by
            unfold setL; rw [if_neg hjq]
          rw [this] at hj ⊢
          exact hinv.frame j hj
      · intro p hp
        rw [← List.append_assoc] at hp
        rcases List.mem_append.mp hp with h | h
        · exact hinv.mem_range p h
        · have : p = q := by simpa using h
          subst this
          exact hqr
      · intro p hp
        rw [← List.append_assoc] at hp
        rcases List.mem_append.mp hp with h | h
        · exact hinv.mem_ndelim p h
        · have : p = q := by simpa using h
          subst this
          exact hqd
      · intro p hp
        rw [← List.append_assoc] at hp
        rcases List.mem_append.mp hp with h | h
        · have : setL labels (ptIdx dm.width q) (zid : ℤ) (ptIdx dm.width p)
              = labels (ptIdx dm.width p) := by
            unfold setL; rw [if_neg (hnotmem p h)]
          rw [this]
          exact hinv.mem_label p h
        · have : p = q := by simpa using h
          subst this
          show setL labels (ptIdx dm.width p) (zid : ℤ) (ptIdx dm.width p) = (zid : ℤ)
          unfold setL; rw [if_pos rfl]
      · intro j hj
        by_cases hjq : j = ptIdx dm.width q
        · subst hjq
          refine ⟨q, ?_, rfl⟩
          rw [← List.append_assoc]
          exact List.mem_append_right _ (List.mem_singleton.mpr rfl)
        · have : setL labels (ptIdx dm.width q) (zid : ℤ) j = labels j := by
            unfold setL; rw [if_neg hjq]
          rw [this] at hj
          obtain ⟨p, hp, hpe⟩ := hinv.label_mem j hj
          refine ⟨p, ?_, hpe⟩
          rw [← List.append_assoc]
          exact List.mem_append_left _ hp
      · rw [← List.append_assoc, List.map_append]
        rw [List.nodup_append]
        refine ⟨hinv.cells_nodup, by simp, ?_⟩
        intro a ha hb'
        have : a = ptIdx dm.width q := by simpa using hb'
        subst this
        obtain ⟨p, hp, hpe⟩ := List.mem_map.mp ha
        exact hnotmem p hp hpe

end Macoma

namespace Macoma

theorem tryEnqueue_measure (dm : DetectionMap) (zid : ℕ) (labels : ℕ → ℤ)
    (queue : List Pt) (q : Pt) :
    5 * unlab dm (tryEnqueue dm zid (labels, queue) q).1
        + (tryEnqueue dm zid (labels, queue) q).2.length
      ≤ 5 * unlab dm labels + queue.length := by
  unfold tryEnqueue
  by_cases hb : q.1 < 0 ∨ (dm.width : ℤ) ≤ q.1 ∨ q.2 < 0 ∨ (dm.height : ℤ) ≤ q.2
  · rw [if_pos hb]
  · rw [if_neg hb]
    push_neg at hb
    have hqr : InRange dm q := ⟨hb.1, hb.2.1, hb.2.2.1, hb.2.2.2⟩
    by_cases hc : dm.isDelimiter (ptIdx dm.width q) = true ∨ labels (ptIdx dm.width q) ≠ -1
    · rw [if_pos hc]
    · rw [if_neg hc]
      push_neg at hc
      obtain ⟨hqd', hql⟩ := hc
      have hqd : dm.isDelimiter (ptIdx dm.width q) = false := by simpa using hqd'
      show 5 * unlab dm (setL labels (ptIdx dm.width q) (zid : ℤ)) + (queue ++ [q]).length
        ≤ 5 * unlab dm labels + queue.length
      have := unlab_set dm labels (ptIdx dm.width q) (zid : ℤ)
        (ptIdx_lt hqr) hqd hql (by omega)
      rw [List.length_append, List.length_singleton]
      omega

theorem foldl_tryEnqueue_measure (dm : DetectionMap) (zid : ℕ) :
    ∀ (cands : List Pt) (labels : ℕ → ℤ) (queue : List Pt),
    5 * unlab dm (cands.foldl (tryEnqueue dm zid) (labels, queue)).1
        + (cands.foldl (tryEnqueue dm zid) (labels, queue)).2.length
      ≤ 5 * unlab dm labels + queue.length := by
  intro cands
  induction cands with
  | nil => intro labels queue; exact le_refl _
  | cons c t ih =>
      intro labels queue
      rw [List.foldl_cons]
      calc 5 * unlab dm (t.foldl (tryEnqueue dm zid) (tryEnqueue dm zid (labels, queue) c)).1
            + (t.foldl (tryEnqueue dm zid) (tryEnqueue dm zid (labels, queue) c)).2.length
          ≤ 5 * unlab dm (tryEnqueue dm zid (labels, queue) c).1
            + (tryEnqueue dm zid (labels, queue) c).2.length := by
            have := ih (tryEnqueue dm zid (labels, queue) c).1
              (tryEnqueue dm zid (labels, queue) c).2
            simpa using this
        _ ≤ 5 * unlab dm labels + queue.length := tryEnqueue_measure dm zid labels queue c

theorem foldl_tryEnqueue_inv {dm : DetectionMap} {zid : ℕ} {L0 : ℕ → ℤ} :
    ∀ (cands : List Pt) (labels : ℕ → ℤ) (queue pixels : List Pt),
    FInv dm zid L0 labels (pixels ++ queue) →
    FInv dm zid L0 (cands.foldl (tryEnqueue dm zid) (labels, queue)).1
      (pixels ++ (cands.foldl (tryEnqueue dm zid) (labels, queue)).2) := by
  intro cands
  induction cands with
  | nil => intro labels queue pixels h; exact h
  | cons c t ih =>
      intro labels queue pixels h
      rw [List.foldl_cons]
      have h1 := tryEnqueue_inv labels queue pixels c h
      have h2 := ih (tryEnqueue dm zid (labels, queue) c).1
        (tryEnqueue dm zid (labels, queue) c).2 pixels h1
      simpa using h2

theorem flood_spec {dm : DetectionMap} {zid : ℕ} {L0 : ℕ → ℤ} :
    ∀ (fuel : ℕ) (labels : ℕ → ℤ) (queue pixels : List Pt),
    5 * unlab dm labels + queue.length ≤ fuel →
    FInv dm zid L0 labels (pixels ++ queue) →
    FInv dm zid L0 (flood dm zid fuel labels queue pixels).1
        (flood dm zid fuel labels queue pixels).2 ∧
      pixels <+: (flood dm zid fuel labels queue pixels).2 := by
  intro fuel
  induction fuel with
  | zero =>
      intro labels queue pixels hm hinv
      cases queue with
      | nil =>
          show FInv dm zid L0 labels pixels ∧ pixels <+: pixels
          rw [List.append_nil] at hinv
          exact ⟨hinv, List.prefix_refl pixels⟩
      | cons p rest =>
          exfalso
          rw [List.length_cons] at hm
          omega
  | succ f ih =>
      intro labels queue pixels hm hinv
      cases queue with
      | nil =>
          show FInv dm zid L0 labels pixels ∧ pixels <+: pixels
          rw [List.append_nil] at hinv
          exact ⟨hinv, List.prefix_refl pixels⟩
      | cons p rest =>
          show FInv dm zid L0
              (flood dm zid f (floodNbrs dm zid labels rest p).1
                (floodNbrs dm zid labels rest p).2 (pixels ++ [p])).1
              (flood dm zid f (floodNbrs dm zid labels rest p).1
                (floodNbrs dm zid labels rest p).2 (pixels ++ [p])).2 ∧
            pixels <+: (flood dm zid f (floodNbrs dm zid labels rest p).1
                (floodNbrs dm zid labels rest p).2 (pixels ++ [p])).2
          have hinv' : FInv dm zid L0 labels ((pixels ++ [p]) ++ rest) := by
            rw [List.append_assoc, List.singleton_append]
            exact hinv
          have hstep := foldl_tryEnqueue_inv
            (dirs.map (fun d => (p.1 + d.1, p.2 + d.2))) labels rest (pixels ++ [p]) hinv'
          have hmeas := foldl_tryEnqueue_measure dm zid
            (dirs.map (fun d => (p.1 + d.1, p.2 + d.2))) labels rest
          have hm' : 5 * unlab dm (floodNbrs dm zid labels rest p).1
              + (floodNbrs dm zid labels rest p).2.length ≤ f := by
            rw [List.length_cons] at hm
            unfold floodNbrs
            omega
          obtain ⟨hf1, hf2⟩ := ih (floodNbrs dm zid labels rest p).1
            (floodNbrs dm zid labels rest p).2 (pixels ++ [p]) hm' hstep
          refine ⟨hf1, List.IsPrefix.trans (List.prefix_append pixels [p]) hf2⟩

end Macoma

namespace Macoma

/-- The inductive invariant of the row-major scan of `FindZones` after the
first `n` flat indices have been processed: zone ids equal positions; labels
are `-1` or a valid zone id; delimiter cells are `-1`; each zone's pixel list
is exactly the cells carrying its label, without duplicates; every processed
filler cell is labeled; zones are non-empty and their first pixels appear at
strictly increasing flat indices below `n`. -/
structure SInv (dm : DetectionMap) (st : List Zone × (ℕ → ℤ)) (n : ℕ) : Prop where
  ids : ∀ k (hk : k < st.1.length), (st.1[k]).id = k
  codr : ∀ j, st.2 j = -1 ∨ ∃ k, k < st.1.length ∧ st.2 j = (k : ℤ)
  delim_neg : ∀ j, dm.isDelimiter j = true → st.2 j = -1
  zmem : ∀ k (hk : k < st.1.length), ∀ p ∈ (st.1[k]).pixels,
    InRange dm p ∧ dm.isDelimiter (ptIdx dm.width p) = false ∧
      st.2 (ptIdx dm.width p) = (k : ℤ)
  zlab : ∀ (j k : ℕ) (hk : k < st.1.length), st.2 j = (k : ℤ) →
    ∃ p ∈ (st.1[k]).pixels, ptIdx dm.width p = j
  znodup : ∀ k (hk : k < st.1.length), ((st.1[k]).pixels.map (ptIdx dm.width)).Nodup
  progress : ∀ j, j < n → j < dm.width * dm.height → dm.isDelimiter j = false →
    st.2 j ≠ -1
  zne : ∀ k (hk : k < st.1.length), (st.1[k]).pixels ≠ []
  zhead : ∀ k (hk : k < st.1.length), ptIdx dm.width ((st.1[k]).pixels.headI) < n
  zmono : ∀ k1 k2 (h1 : k1 < st.1.length) (h2 : k2 < st.1.length), k1 < k2 →
    ptIdx dm.width ((st.1[k1]).pixels.headI) < ptIdx dm.width ((st.1[k2]).pixels.headI)

end Macoma

namespace Macoma

theorem unlab_le (dm : DetectionMap) (labels : ℕ → ℤ) :
    unlab dm labels ≤ dm.width * dm.height := by
  unfold unlab
  calc (List.range (dm.width * dm.height)).countP _
      ≤ (List.range (dm.width * dm.height)).length := List.countP_le_length _
    _ = dm.width * dm.height := List.length_range _

theorem scanStep_inv (dm : DetectionMap) (st : List Zone × (ℕ → ℤ)) (n : ℕ)
    (hn : n < dm.width * dm.height) (hinv : SInv dm st n) :
    SInv dm (scanStep dm st n) (n + 1) := by
  obtain ⟨zones, labels⟩ := st
  have Hids : ∀ k (hk : k < zones.length), (zones[k]).id = k := hinv.ids
  have Hcodr : ∀ j, labels j = -1 ∨ ∃ k, k < zones.length ∧ labels j = (k : ℤ) := hinv.codr
  have Hdelim : ∀ j, dm.isDelimiter j = true → labels j = -1 := hinv.delim_neg
  have Hzmem : ∀ k (hk : k < zones.length), ∀ p ∈ (zones[k]).pixels,
      InRange dm p ∧ dm.isDelimiter (ptIdx dm.width p) = false ∧
        labels (ptIdx dm.width p) = (k : ℤ) := hinv.zmem
  have Hzlab : ∀ (j k : ℕ) (hk : k < zones.length), labels j = (k : ℤ) →
      ∃ p ∈ (zones[k]).pixels, ptIdx dm.width p = j := hinv.zlab
  have Hznodup : ∀ k (hk : k < zones.length),
      ((zones[k]).pixels.map (ptIdx dm.width)).Nodup := hinv.znodup
  have Hprog : ∀ j, j < n → j < dm.width * dm.height → dm.isDelimiter j = false →
      labels j ≠ -1 := hinv.progress
  have Hzne : ∀ k (hk : k < zones.length), (zones[k]).pixels ≠ [] := hinv.zne
  have Hzhead : ∀ k (hk : k < zones.length),
      ptIdx dm.width ((zones[k]).pixels.headI) < n := hinv.zhead
  have Hzmono : ∀ k1 k2 (h1 : k1 < zones.length) (h2 : k2 < zones.length), k1 < k2 →
      ptIdx dm.width ((zones[k1]).pixels.headI)
        < ptIdx dm.width ((zones[k2]).pixels.headI) := hinv.zmono
  unfold scanStep
  by_cases hc : dm.isDelimiter n = true ∨ labels n ≠ -1
  · rw [if_pos hc]
    refine ⟨Hids, Hcodr, Hdelim, Hzmem, Hzlab, Hznodup, ?_, Hzne, ?_, Hzmono⟩
    · intro j hj hjr hjd
      by_cases hjn : j = n
      · subst hjn
        rcases hc with h | h
        · rw [hjd] at h; exact absurd h (by simp)
        · exact h
      · exact Hprog j (by omega) hjr hjd
    · intro k hk
      show ptIdx dm.width ((zones[k]).pixels.headI) < n + 1
      have := Hzhead k hk
      omega
  · rw [if_neg hc]
    push_neg at hc
    obtain ⟨hdel', hlab⟩ := hc
    have hdel : dm.isDelimiter n = false := by simpa using hdel'
    have hw : 0 < dm.width := by
      rcases Nat.eq_zero_or_pos dm.width with h | h
      · rw [h] at hn; simp at hn
      · exact h
    have hseedidx : ptIdx dm.width (((n % dm.width : ℕ) : ℤ), ((n / dm.width : ℕ) : ℤ))
        = n := ptIdx_seed dm.width n
    have hseedrange : InRange dm (((n % dm.width : ℕ) : ℤ), ((n / dm.width : ℕ) : ℤ)) := by
      refine ⟨?_, ?_, ?_, ?_⟩
      · show (0 : ℤ) ≤ ((n % dm.width : ℕ) : ℤ)
        positivity
      · show ((n % dm.width : ℕ) : ℤ) < (dm.width : ℤ)
        exact_mod_cast Nat.mod_lt n hw
      · show (0 : ℤ) ≤ ((n / dm.width : ℕ) : ℤ)
        positivity
      · show ((n / dm.width : ℕ) : ℤ) < (dm.height : ℤ)
        have : n / dm.width < dm.height := by
          rw [Nat.div_lt_iff_lt_mul hw, Nat.mul_comm]
          exact hn
        exact_mod_cast this
    have hL0 : ∀ j, labels j ≠ ((zones.length : ℕ) : ℤ) := by
      intro j
      rcases Hcodr j with h | ⟨k, hk, h⟩
      · rw [h]; omega
      · rw [h]
        intro he
        have : k = zones.length := by exact_mod_cast he
        omega
    have hinit : FInv dm zones.length labels
        (setL labels n ((zones.length : ℕ) : ℤ))
        [(((n % dm.width : ℕ) : ℤ), ((n / dm.width : ℕ) : ℤ))] := by
      constructor
      · intro j hj
        by_cases hjn : j = n
        · subst hjn
          refine ⟨?_, hlab⟩
          simp [setL]
        · exfalso
          apply hj
          simp [setL, hjn]
      · intro p hp
        have : p = (((n % dm.width : ℕ) : ℤ), ((n / dm.width : ℕ) : ℤ)) := by simpa using hp
        subst this
        exact hseedrange
      · intro p hp
        have : p = (((n % dm.width : ℕ) : ℤ), ((n / dm.width : ℕ) : ℤ)) := by simpa using hp
        subst this
        rw [hseedidx]
        exact hdel
      · intro p hp
        have : p = (((n % dm.width : ℕ) : ℤ), ((n / dm.width : ℕ) : ℤ)) := by simpa using hp
        subst this
        rw [hseedidx]
        simp [setL]
      · intro j hj
        by_cases hjn : j = n
        · subst hjn
          exact ⟨_, List.mem_singleton.mpr rfl, hseedidx⟩
        · exfalso
          have : setL labels n ((zones.length : ℕ) : ℤ) j = labels j := by
            simp [setL, hjn]
          rw [this] at hj
          exact hL0 j hj
      · simp
    have hmeas : 5 * unlab dm (setL labels n ((zones.length : ℕ) : ℤ))
        + [(((n % dm.width : ℕ) : ℤ), ((n / dm.width : ℕ) : ℤ))].length
        ≤ 5 * dm.width * dm.height + 1 := by
      have h1 := unlab_le dm (setL labels n ((zones.length : ℕ) : ℤ))
      rw [List.length_singleton]
      have h5 : 5 * dm.width * dm.height = 5 * (dm.width * dm.height) := by ring
      omega
    have hflood := @flood_spec dm zones.length labels
      (5 * dm.width * dm.height + 1) (setL labels n ((zones.length : ℕ) : ℤ))
      [(((n % dm.width : ℕ) : ℤ), ((n / dm.width : ℕ) : ℤ))] []
      hmeas (by rw [List.nil_append]; exact hinit)
    obtain ⟨hfinv, _⟩ := hflood
    set F := flood dm zones.length (5 * dm.width * dm.height + 1)
      (setL labels n ((zones.length : ℕ) : ℤ))
      [(((n % dm.width : ℕ) : ℤ), ((n / dm.width : ℕ) : ℤ))] [] with hF
    have hseedpref : [(((n % dm.width : ℕ) : ℤ), ((n / dm.width : ℕ) : ℤ))] <+: F.2 := by
      have hstep : F = flood dm zones.length (5 * dm.width * dm.height)
          (floodNbrs dm zones.length (setL labels n ((zones.length : ℕ) : ℤ)) []
            (((n % dm.width : ℕ) : ℤ), ((n / dm.width : ℕ) : ℤ))).1
          (floodNbrs dm zones.length (setL labels n ((zones.length : ℕ) : ℤ)) []
            (((n % dm.width : ℕ) : ℤ), ((n / dm.width : ℕ) : ℤ))).2
          [(((n % dm.width : ℕ) : ℤ), ((n / dm.width : ℕ) : ℤ))] := rfl
      have hinv1 := @foldl_tryEnqueue_inv dm zones.length labels
        (dirs.map (fun d => ((((n % dm.width : ℕ) : ℤ)) + d.1, (((n / dm.width : ℕ) : ℤ)) + d.2)))
        (setL labels n ((zones.length : ℕ) : ℤ)) []
        [(((n % dm.width : ℕ) : ℤ), ((n / dm.width : ℕ) : ℤ))]
        (by rw [List.append_nil]; exact hinit)
      have hmeas1 : 5 * unlab dm (floodNbrs dm zones.length
            (setL labels n ((zones.length : ℕ) : ℤ)) []
            (((n % dm.width : ℕ) : ℤ), ((n / dm.width : ℕ) : ℤ))).1
          + (floodNbrs dm zones.length (setL labels n ((zones.length : ℕ) : ℤ)) []
            (((n % dm.width : ℕ) : ℤ), ((n / dm.width : ℕ) : ℤ))).2.length
          ≤ 5 * dm.width * dm.height := by
        have hm2 := foldl_tryEnqueue_measure dm zones.length
          (dirs.map (fun d =>
            ((((n % dm.width : ℕ) : ℤ)) + d.1, (((n / dm.width : ℕ) : ℤ)) + d.2)))
          (setL labels n ((zones.length : ℕ) : ℤ)) []
        have hset : unlab dm (setL labels n ((zones.length : ℕ) : ℤ)) + 1
            = unlab dm labels :=
          unlab_set dm labels n _ hn hdel hlab (by omega)
        have h2 := unlab_le dm labels
        have hconv : floodNbrs dm zones.length (setL labels n ((zones.length : ℕ) : ℤ)) []
            (((n % dm.width : ℕ) : ℤ), ((n / dm.width : ℕ) : ℤ))
            = (dirs.map (fun d =>
                ((((n % dm.width : ℕ) : ℤ)) + d.1, (((n / dm.width : ℕ) : ℤ)) + d.2))).foldl
              (tryEnqueue dm zones.length)
              (setL labels n ((zones.length : ℕ) : ℤ), []) := rfl
        rw [hconv]
        rw [List.length_nil] at hm2
        have h5 : 5 * dm.width * dm.height = 5 * (dm.width * dm.height) := by ring
        omega
      obtain ⟨_, hpref⟩ := @flood_spec dm zones.length labels
        (5 * dm.width * dm.height)
        (floodNbrs dm zones.length (setL labels n ((zones.length : ℕ) : ℤ)) []
          (((n % dm.width : ℕ) : ℤ), ((n / dm.width : ℕ) : ℤ))).1
        (floodNbrs dm zones.length (setL labels n ((zones.length : ℕ) : ℤ)) []
          (((n % dm.width : ℕ) : ℤ), ((n / dm.width : ℕ) : ℤ))).2
        [(((n % dm.width : ℕ) : ℤ), ((n / dm.width : ℕ) : ℤ))] hmeas1 hinv1
      rw [hstep]
      exact hpref
    obtain ⟨trest, htrest⟩ := hseedpref
    have hF2 : F.2 = (((n % dm.width : ℕ) : ℤ), ((n / dm.width : ℕ) : ℤ)) :: trest := by
      rw [← htrest, List.singleton_append]
    have Fframe := hfinv.frame
    have Frange := hfinv.mem_range
    have Fndelim := hfinv.mem_ndelim
    have Flabel := hfinv.mem_label
    have Fmem := hfinv.label_mem
    have Fnodup := hfinv.cells_nodup
    have hkeep : ∀ (j : ℕ) (k : ℕ), k < zones.length →
        (F.1 j = (k : ℤ) ↔ labels j = (k : ℤ)) := by
      intro j k hk
      by_cases hch : F.1 j = labels j
      · rw [hch]
      · obtain ⟨h1, h2⟩ := Fframe j hch
        rw [h1, h2]
        constructor
        · intro he
          exfalso
          have : zones.length = k := by exact_mod_cast he
          omega
        · intro he
          exfalso
          omega
    have hneg_keep : ∀ j, F.1 j = -1 → labels j = -1 := by
      intro j hj
      by_cases hch : F.1 j = labels j
      · rw [← hch]; exact hj
      · obtain ⟨h1, _⟩ := Fframe j hch
        rw [h1] at hj
        exfalso
        omega
    have hlen' : (zones ++ [(⟨zones.length, F.2⟩ : Zone)]).length = zones.length + 1 := by
      rw [List.length_append, List.length_singleton]
    have hgetold : ∀ k (hk : k < zones.length),
        (zones ++ [(⟨zones.length, F.2⟩ : Zone)])[k] = zones[k] := by
      intro k hk
      exact List.getElem_append_left hk
    have hgetnew : (zones ++ [(⟨zones.length, F.2⟩ : Zone)])[zones.length] =
        ⟨zones.length, F.2⟩ := by
      rw [List.getElem_append_right (le_refl _)]
      simp
    have Nids : ∀ k (hk : k < (zones ++ [(⟨zones.length, F.2⟩ : Zone)]).length),
        ((zones ++ [(⟨zones.length, F.2⟩ : Zone)])[k]).id = k := by
      intro k hk
      rw [hlen'] at hk
      by_cases hkl : k < zones.length
      · rw [hgetold k hkl]
        exact Hids k hkl
      · have : k = zones.length := by omega
        subst this
        rw [hgetnew]
    have Ncodr : ∀ j, F.1 j = -1 ∨
        ∃ k, k < (zones ++ [(⟨zones.length, F.2⟩ : Zone)]).length ∧ F.1 j = (k : ℤ) := by
      intro j
      by_cases hch : F.1 j = labels j
      · rcases Hcodr j with h | ⟨k, hk, h⟩
        · exact Or.inl (by rw [hch]; exact h)
        · exact Or.inr ⟨k, by rw [hlen']; omega, by rw [hch]; exact h⟩
      · obtain ⟨h1, _⟩ := Fframe j hch
        exact Or.inr ⟨zones.length, by rw [hlen']; omega, h1⟩
    have Ndelim : ∀ j, dm.isDelimiter j = true → F.1 j = -1 := by
      intro j hj
      by_cases hch : F.1 j = labels j
      · rw [hch]; exact Hdelim j hj
      · exfalso
        obtain ⟨h1, _⟩ := Fframe j hch
        obtain ⟨p, hp, hpe⟩ := Fmem j h1
        have := Fndelim p hp
        rw [hpe, hj] at this
        exact absurd this (by simp)
    have Nzmem : ∀ k (hk : k < (zones ++ [(⟨zones.length, F.2⟩ : Zone)]).length),
        ∀ p ∈ ((zones ++ [(⟨zones.length, F.2⟩ : Zone)])[k]).pixels,
        InRange dm p ∧ dm.isDelimiter (ptIdx dm.width p) = false ∧
          F.1 (ptIdx dm.width p) = (k : ℤ) := by
      intro k hk p hp
      rw [hlen'] at hk
      by_cases hkl : k < zones.length
      · rw [hgetold k hkl] at hp
        obtain ⟨h1, h2, h3⟩ := Hzmem k hkl p hp
        exact ⟨h1, h2, (hkeep (ptIdx dm.width p) k hkl).mpr h3⟩
      · have hke : k = zones.length := by omega
        subst hke
        rw [hgetnew] at hp
        have hp' : p ∈ F.2 := hp
        exact ⟨Frange p hp', Fndelim p hp', Flabel p hp'⟩
    have Nzlab : ∀ (j k : ℕ) (hk : k < (zones ++ [(⟨zones.length, F.2⟩ : Zone)]).length),
        F.1 j = (k : ℤ) →
        ∃ p ∈ ((zones ++ [(⟨zones.length, F.2⟩ : Zone)])[k]).pixels,
          ptIdx dm.width p = j := by
      intro j k hk hj
      rw [hlen'] at hk
      by_cases hkl : k < zones.length
      · rw [hgetold k hkl]
        exact Hzlab j k hkl ((hkeep j k hkl).mp hj)
      · have hke : k = zones.length := by omega
        subst hke
        rw [hgetnew]
        exact Fmem j hj
    have Nznodup : ∀ k (hk : k < (zones ++ [(⟨zones.length, F.2⟩ : Zone)]).length),
        (((zones ++ [(⟨zones.length, F.2⟩ : Zone)])[k]).pixels.map (ptIdx dm.width)).Nodup := by
      intro k hk
      rw [hlen'] at hk
      by_cases hkl : k < zones.length
      · rw [hgetold k hkl]
        exact Hznodup k hkl
      · have hke : k = zones.length := by omega
        subst hke
        rw [hgetnew]
        exact Fnodup
    have Nprog : ∀ j, j < n + 1 → j < dm.width * dm.height →
        dm.isDelimiter j = false → F.1 j ≠ -1 := by
      intro j hj hjr hjd
      by_cases hjn : j = n
      · subst hjn
        have hseedmem : (((j % dm.width : ℕ) : ℤ), ((j / dm.width : ℕ) : ℤ)) ∈ F.2 := by
          rw [hF2]; exact List.mem_cons_self _ _
        have := Flabel _ hseedmem
        rw [hseedidx] at this
        rw [this]
        omega
      · intro hcontra
        exact Hprog j (by omega) hjr hjd (hneg_keep j hcontra)
    have Nzne : ∀ k (hk : k < (zones ++ [(⟨zones.length, F.2⟩ : Zone)]).length),
        ((zones ++ [(⟨zones.length, F.2⟩ : Zone)])[k]).pixels ≠ [] := by
      intro k hk
      rw [hlen'] at hk
      by_cases hkl : k < zones.length
      · rw [hgetold k hkl]
        exact Hzne k hkl
      · have hke : k = zones.length := by omega
        subst hke
        rw [hgetnew]
        show F.2 ≠ []
        rw [hF2]
        simp
    have Nzhead : ∀ k (hk : k < (zones ++ [(⟨zones.length, F.2⟩ : Zone)]).length),
        ptIdx dm.width (((zones ++ [(⟨zones.length, F.2⟩ : Zone)])[k]).pixels.headI)
          < n + 1 := by
      intro k hk
      rw [hlen'] at hk
      by_cases hkl : k < zones.length
      · rw [hgetold k hkl]
        have := Hzhead k hkl
        omega
      · have hke : k = zones.length := by omega
        subst hke
        rw [hgetnew]
        show ptIdx dm.width (F.2.headI) < n + 1
        rw [hF2]
        show ptIdx dm.width (((n % dm.width : ℕ) : ℤ), ((n / dm.width : ℕ) : ℤ)) < n + 1
        rw [hseedidx]
        omega
    have Nzmono : ∀ k1 k2 (h1 : k1 < (zones ++ [(⟨zones.length, F.2⟩ : Zone)]).length)
        (h2 : k2 < (zones ++ [(⟨zones.length, F.2⟩ : Zone)]).length), k1 < k2 →
        ptIdx dm.width (((zones ++ [(⟨zones.length, F.2⟩ : Zone)])[k1]).pixels.headI)
          < ptIdx dm.width (((zones ++ [(⟨zones.length, F.2⟩ : Zone)])[k2]).pixels.headI) := by
      intro k1 k2 h1 h2 h12
      rw [hlen'] at h1 h2
      by_cases hk2 : k2 < zones.length
      · have hk1 : k1 < zones.length := by omega
        rw [hgetold k1 hk1, hgetold k2 hk2]
        exact Hzmono k1 k2 hk1 hk2 h12
      · have hke : k2 = zones.length := by omega
        subst hke
        have hk1 : k1 < zones.length := by omega
        rw [hgetold k1 hk1, hgetnew]
        show ptIdx dm.width ((zones[k1]).pixels.headI) < ptIdx dm.width (F.2.headI)
        rw [hF2]
        show ptIdx dm.width ((zones[k1]).pixels.headI)
          < ptIdx dm.width (((n % dm.width : ℕ) : ℤ), ((n / dm.width : ℕ) : ℤ))
        rw [hseedidx]
        have := Hzhead k1 hk1
        omega
    exact ⟨Nids, Ncodr, Ndelim, Nzmem, Nzlab, Nznodup, Nprog, Nzne, Nzhead, Nzmono⟩

end Macoma

namespace Macoma

theorem findZones_inv (dm : DetectionMap) :
    SInv dm (FindZones dm) (dm.width * dm.height) := by
  unfold FindZones
  have H : ∀ n, n ≤ dm.width * dm.height →
      SInv dm ((List.range n).foldl (scanStep dm) ([], fun _ => -1)) n := by
    intro n
    induction n with
    | zero =>
        intro _
        exact ⟨fun k hk => absurd hk (by simp), fun j => Or.inl rfl, fun j _ => rfl,
          fun k hk => absurd hk (by simp), fun j k hk _ => absurd hk (by simp),
          fun k hk => absurd hk (by simp), fun j hj _ _ => absurd hj (by omega),
          fun k hk => absurd hk (by simp), fun k hk => absurd hk (by simp),
          fun k1 k2 h1 _ _ => absurd h1 (by simp)⟩
    | succ m ih =>
        intro h
        rw [List.range_succ, List.foldl_append, List.foldl_cons, List.foldl_nil]
        exact scanStep_inv dm _ m (by omega) (ih (by omega))
  exact H _ (le_refl _)

theorem flatIdx_lt {w h x y : ℕ} (hx : x < w) (hy : y < h) : y * w + x < w * h := by
  have h1 : y * w + x < (y + 1) * w := by rw [Nat.succ_mul]; omega
  have h2 : (y + 1) * w ≤ h * w := Nat.mul_le_mul_right _ hy
  calc y * w + x < (y + 1) * w := h1
    _ ≤ h * w := h2
    _ = w * h := Nat.mul_comm _ _

/-- C1: `FindZones` partitions the grid: every in-range pixel is either a
delimiter pixel labeled `-1` or a filler pixel labeled with a zone id `≥ 0`;
the zones' pixel lists cover exactly the non-delimiter in-range pixels with no
pixel repeated within or across zones; and each pixel's label is the id of the
zone whose list contains it. -/
theorem findZones_partition (dm : DetectionMap) :
    (∀ x y : ℕ, x < dm.width → y < dm.height →
      ((dm.isDelimiter (y * dm.width + x) = true ∧
          (FindZones dm).2 (y * dm.width + x) = -1) ∨
       (dm.isDelimiter (y * dm.width + x) = false ∧
          0 ≤ (FindZones dm).2 (y * dm.width + x)))) ∧
    (∀ p : Pt, (∃ z ∈ (FindZones dm).1, p ∈ z.pixels) ↔
      (InRange dm p ∧ dm.isDelimiter (ptIdx dm.width p) = false)) ∧
    (((FindZones dm).1.map Zone.pixels).flatten.Nodup) ∧
    (∀ z ∈ (FindZones dm).1, ∀ p ∈ z.pixels,
      (FindZones dm).2 (ptIdx dm.width p) = (z.id : ℤ)) := by
  have S := findZones_inv dm
  refine ⟨?_, ?_, ?_, ?_⟩
  · intro x y hx hy
    rcases Bool.eq_false_or_eq_true (dm.isDelimiter (y * dm.width + x)) with hd | hd
    · exact Or.inl ⟨hd, S.delim_neg _ hd⟩
    · right
      refine ⟨hd, ?_⟩
      have hne := S.progress (y * dm.width + x) (flatIdx_lt hx hy) (flatIdx_lt hx hy) hd
      rcases S.codr (y * dm.width + x) with h | ⟨k, hk, h⟩
      · exact absurd h hne
      · rw [h]; omega
  · intro p
    constructor
    · rintro ⟨z, hz, hp⟩
      obtain ⟨k, hk, rfl⟩ := List.getElem_of_mem hz
      obtain ⟨h1, h2, _⟩ := S.zmem k hk p hp
      exact ⟨h1, h2⟩
    · rintro ⟨hr, hdm⟩
      have hj := ptIdx_lt hr
      have hne := S.progress (ptIdx dm.width p) hj hj hdm
      rcases S.codr (ptIdx dm.width p) with h | ⟨k, hk, h⟩
      · exact absurd h hne
      · obtain ⟨q, hq, hqe⟩ := S.zlab (ptIdx dm.width p) k hk h
        obtain ⟨hqr, _, _⟩ := S.zmem k hk q hq
        have : q = p := ptIdx_inj hqr hr hqe
        subst this
        exact ⟨(FindZones dm).1[k], List.getElem_mem hk, hq⟩
  · rw [List.nodup_flatten]
    constructor
    · intro l hl
      obtain ⟨z, hz, rfl⟩ := List.mem_map.mp hl
      obtain ⟨k, hk, rfl⟩ := List.getElem_of_mem hz
      exact (S.znodup k hk).of_map
    · rw [List.pairwise_iff_getElem]
      intro i j hi hj hij
      have hi' : i < (FindZones dm).1.length := by simpa using hi
      have hj' : j < (FindZones dm).1.length := by simpa using hj
      rw [List.getElem_map, List.getElem_map]
      intro a hai haj
      have h1 := (S.zmem i hi' a hai).2.2
      have h2 := (S.zmem j hj' a haj).2.2
      rw [h1] at h2
      have : i = j := by exact_mod_cast h2
      omega
  · intro z hz p hp
    obtain ⟨k, hk, rfl⟩ := List.getElem_of_mem hz
    rw [S.ids k hk]
    exact (S.zmem k hk p hp).2.2

/-- Witness for C1 at the 5×5 cross map, pixel (0, 0). -/
theorem findZones_partition_witness :
    ((0 : ℕ) < 5 ∧ (0 : ℕ) < 5) ∧
    (((DetectionMap.mk 5 5
        (fun i => decide (i / 5 = 2) || decide (i % 5 = 2))).isDelimiter (0 * 5 + 0) = true ∧
      (FindZones (DetectionMap.mk 5 5
        (fun i => decide (i / 5 = 2) || decide (i % 5 = 2)))).2 (0 * 5 + 0) = -1) ∨
    ((DetectionMap.mk 5 5
        (fun i => decide (i / 5 = 2) || decide (i % 5 = 2))).isDelimiter (0 * 5 + 0) = false ∧
      0 ≤ (FindZones (DetectionMap.mk 5 5
        (fun i => decide (i / 5 = 2) || decide (i % 5 = 2)))).2 (0 * 5 + 0))) :=
  ⟨⟨by decide, by decide⟩,
    (findZones_partition (DetectionMap.mk 5 5
      (fun i => decide (i / 5 = 2) || decide (i % 5 = 2)))).1 0 0 (by decide) (by decide)⟩

/-- C10: the zone slice of `FindZones` is id-addressable (`zones[i].ID = i`),
every returned zone has a non-empty pixel list, and zone ids follow the
row-major order of each zone's first-discovered pixel. -/
theorem findZones_ids (dm : DetectionMap) :
    (∀ k (hk : k < (FindZones dm).1.length), (((FindZones dm).1)[k]).id = k) ∧
    (∀ z ∈ (FindZones dm).1, z.pixels ≠ []) ∧
    (∀ k1 k2 (h1 : k1 < (FindZones dm).1.length) (h2 : k2 < (FindZones dm).1.length),
      k1 < k2 →
      ptIdx dm.width ((((FindZones dm).1)[k1]).pixels.headI)
        < ptIdx dm.width ((((FindZones dm).1)[k2]).pixels.headI)) := by
  have S := findZones_inv dm
  refine ⟨S.ids, ?_, S.zmono⟩
  intro z hz
  obtain ⟨k, hk, rfl⟩ := List.getElem_of_mem hz
  exact S.zne k hk

/-- Witness for C10 on the 5×5 cross map: ids 0 and 1 are in discovery order. -/
theorem findZones_ids_witness :
    ((0 : ℕ) < (FindZones (DetectionMap.mk 5 5
        (fun i => decide (i / 5 = 2) || decide (i % 5 = 2)))).1.length ∧
      (1 : ℕ) < (FindZones (DetectionMap.mk 5 5
        (fun i => decide (i / 5 = 2) || decide (i % 5 = 2)))).1.length) ∧
    ptIdx 5 (((FindZones (DetectionMap.mk 5 5
        (fun i => decide (i / 5 = 2) || decide (i % 5 = 2)))).1.get
          ⟨0, by decide⟩).pixels.headI)
      < ptIdx 5 (((FindZones (DetectionMap.mk 5 5
        (fun i => decide (i / 5 = 2) || decide (i % 5 = 2)))).1.get
          ⟨1, by decide⟩).pixels.headI) := by
  refine ⟨⟨by decide, by decide⟩, ?_⟩
  exact (findZones_ids (DetectionMap.mk 5 5
    (fun i => decide (i / 5 = 2) || decide (i % 5 = 2)))).2.2 0 1 (by decide) (by decide)
    (by decide)

end Macoma

namespace Macoma

/-- The 5×5 delimiter map whose delimiter pixels are exactly row 2 and
column 2 (the cross scenario of the specification). -/
def crossDM : DetectionMap :=
  ⟨5, 5, fun i => decide (i < 25 ∧ (i / 5 = 2 ∨ i % 5 = 2))⟩

/-- C6 counterexample: row 2 and column 2 of a 5×5 grid overlap in one cell,
so the cross consists of 9 pixels, not 8 — and exactly 9 cells end up labeled
`-1`, refuting the claim's count of 8. -/
theorem findZones_cross_counterexample :
    (List.range 25).countP (fun i => crossDM.isDelimiter i) = 9 ∧
    (List.range 25).countP (fun i => decide ((FindZones crossDM).2 i = -1)) = 9 ∧
    ¬ (List.range 25).countP (fun i => decide ((FindZones crossDM).2 i = -1)) = 8 := by
  decide

/-- C6 (amended): on the 5×5 cross map `FindZones` returns exactly 4 zones of
4 pixels each, and all 9 (not 8) boundary-cross pixels are labeled `-1`; a
cell is labeled `-1` exactly when it is a cross pixel. -/
theorem findZones_cross :
    (FindZones crossDM).1.length = 4 ∧
    (∀ z ∈ (FindZones crossDM).1, z.pixels.length = 4) ∧
    (∀ i, i < 25 → (crossDM.isDelimiter i = true ↔ (FindZones crossDM).2 i = -1)) ∧
    (List.range 25).countP (fun i => decide ((FindZones crossDM).2 i = -1)) = 9 := by
  decide

/-- Witness for C6 at the cross center, cell (2, 2) = flat index 12. -/
theorem findZones_cross_witness :
    (12 : ℕ) < 25 ∧
    (crossDM.isDelimiter 12 = true ↔ (FindZones crossDM).2 12 = -1) :=
  ⟨by decide, findZones_cross.2.2.1 12 (by decide)⟩

end Macoma

namespace Macoma

/-! ## Properties of the interior-point placement -/

theorem setA_lookup (d : List (Pt × ℤ)) (p : Pt) (v : ℤ) (q : Pt) :
    lookupA (setA d p v) q = if q = p then some v else lookupA d q := by
  unfold setA lookupA
  by_cases hpres : d.any (fun e => decide (e.1 = p)) = true
  · rw [if_pos hpres]
    induction d with
    | nil => simp at hpres
    | cons e t ih =>
        rw [List.map_cons]
        by_cases hep : e.1 = p
        · rw [if_pos hep]
          by_cases hqp : q = p
          · subst hqp
            rw [if_pos rfl]
            rw [List.find?_cons_of_pos _ (by simp)]
            rfl
          · rw [if_neg hqp]
            rw [List.find?_cons_of_neg _ (by simp; exact fun h => hqp h.symm)]
            rw [List.find?_cons_of_neg _ (by rw [hep]; simp; exact fun h => hqp h.symm)]
            by_cases htp : t.any (fun e => decide (e.1 = p)) = true
            · rw [ih htp, if_neg hqp]
            · have hmapid : t.map (fun e => if e.1 = p then (p, v) else e) = t := by
                conv_rhs => rw [← List.map_id t]
                apply List.map_congr_left
                intro a ha
                show (if a.1 = p then (p, v) else a) = a
                rw [if_neg]
                intro hap
                rw [List.any_eq_true] at htp
                push_neg at htp
                exact absurd (by simpa using hap) (by simpa using htp a ha)
              rw [hmapid]
        · rw [if_neg hep]
          by_cases hqe : e.1 = q
          · rw [List.find?_cons_of_pos _ (by simp [hqe]),
              List.find?_cons_of_pos _ (by simp [hqe])]
            rw [if_neg (fun h : q = p => hep (hqe ▸ h ▸ rfl))]
          · rw [List.find?_cons_of_neg _ (by simp [hqe]),
              List.find?_cons_of_neg _ (by simp [hqe])]
            have htp : t.any (fun e => decide (e.1 = p)) = true := by
              rcases List.any_eq_true.mp hpres with ⟨a, ha, hpa⟩
              rcases List.mem_cons.mp ha with rfl | hat
              · exact absurd (by simpa using hpa) hep
              · exact List.any_eq_true.mpr ⟨a, hat, hpa⟩
            exact ih htp
  · rw [if_neg hpres]
    rw [List.any_eq_true] at hpres
    push_neg at hpres
    by_cases hqp : q = p
    · subst hqp
      rw [if_pos rfl]
      rw [List.find?_append]
      have hnone : d.find? (fun e => decide (e.1 = q)) = none := by
        rw [List.find?_eq_none]
        intro e he
        simpa using hpres e he
      rw [hnone]
      simp
    · rw [if_neg hqp]
      rw [List.find?_append]
      cases hfind : d.find? (fun e => decide (e.1 = q)) with
      | some e => rfl
      | none =>
          simp only [Option.none_or]
          rw [List.find?_cons_of_neg _ (by simp; exact fun h => hqp h.symm)]
          rfl

end Macoma

namespace Macoma

theorem init_fold_lookup (P : List Pt) :
    ∀ (l : List Pt) (st : List (Pt × ℤ) × List Pt) (q : Pt),
    lookupA ((l.foldl (fun st p => if isBoundaryPix P p then (setA st.1 p 0, st.2 ++ [p])
        else (setA st.1 p (-1), st.2)) st).1) q
      = if q ∈ l then some (if isBoundaryPix P q then 0 else -1) else lookupA st.1 q := by
  intro l
  induction l using List.reverseRecOn with
  | nil => intro st q; simp
  | append_singleton l p ih =>
      intro st q
      rw [List.foldl_append, List.foldl_cons, List.foldl_nil]
      have hstep : ∀ (X : List (Pt × ℤ) × List Pt),
          ((if isBoundaryPix P p then (setA X.1 p 0, X.2 ++ [p])
            else (setA X.1 p (-1), X.2)).1)
          = setA X.1 p (if isBoundaryPix P p then 0 else -1) := by
        intro X
        by_cases hb : isBoundaryPix P p = true
        · rw [if_pos hb, if_pos hb]
        · rw [if_neg hb, if_neg hb]
      rw [hstep, setA_lookup]
      by_cases hqp : q = p
      · subst hqp
        rw [if_pos rfl,
          if_pos (List.mem_append_right l (List.mem_singleton.mpr rfl))]
      · rw [if_neg hqp, ih st q]
        by_cases hql : q ∈ l
        · rw [if_pos hql, if_pos (List.mem_append_left [p] hql)]
        · rw [if_neg hql, if_neg (fun h => (List.mem_append.mp h).elim
            (fun h1 => hql h1) (fun h2 => hqp (by simpa using h2)))]

theorem distInit_lookup (P : List Pt) (q : Pt) :
    lookupA (distInit P).1 q
      = if q ∈ P then some (if isBoundaryPix P q then 0 else -1) else none := by
  unfold distInit
  rw [init_fold_lookup P P ([], []) q]
  rfl

end Macoma

namespace Macoma

theorem bfsStep_keys {P : List Pt} {nd : ℤ} {p : Pt} {st : List (Pt × ℤ) × List Pt} {d : Pt}
    (h : ∀ q v, lookupA st.1 q = some v → q ∈ P) :
    ∀ q v, lookupA (bfsStep nd p st d).1 q = some v → q ∈ P := by
  intro q v
  unfold bfsStep
  cases hl : lookupA st.1 (p.1 + d.1, p.2 + d.2) with
  | none => exact h q v
  | some dd =>
      show lookupA (if dd = -1 then
          (setA st.1 (p.1 + d.1, p.2 + d.2) nd, st.2 ++ [(p.1 + d.1, p.2 + d.2)])
        else st).1 q = some v → q ∈ P
      by_cases hdd : dd = -1
      · rw [if_pos hdd]
        show lookupA (setA st.1 (p.1 + d.1, p.2 + d.2) nd) q = some v → q ∈ P
        rw [setA_lookup]
        by_cases hq : q = (p.1 + d.1, p.2 + d.2)
        · rw [if_pos hq]
          intro _
          rw [hq]
          exact h _ dd hl
        · rw [if_neg hq]
          exact h q v
      · rw [if_neg hdd]
        exact h q v

theorem bfsStep_zero {q0 : Pt} {nd : ℤ} {p : Pt} {st : List (Pt × ℤ) × List Pt} {d : Pt}
    (h : lookupA st.1 q0 = some 0) :
    lookupA (bfsStep nd p st d).1 q0 = some 0 := by
  unfold bfsStep
  cases hl : lookupA st.1 (p.1 + d.1, p.2 + d.2) with
  | none => exact h
  | some dd =>
      show lookupA (if dd = -1 then
          (setA st.1 (p.1 + d.1, p.2 + d.2) nd, st.2 ++ [(p.1 + d.1, p.2 + d.2)])
        else st).1 q0 = some 0
      by_cases hdd : dd = -1
      · rw [if_pos hdd]
        show lookupA (setA st.1 (p.1 + d.1, p.2 + d.2) nd) q0 = some 0
        rw [setA_lookup]
        by_cases hq : q0 = (p.1 + d.1, p.2 + d.2)
        · exfalso
          rw [← hq] at hl
          rw [h] at hl
          have : dd = 0 := by
            have := Option.some.inj hl
            omega
          omega
        · rw [if_neg hq]
          exact h
      · rw [if_neg hdd]
        exact h

theorem bfsFold_keys {P : List Pt} {nd : ℤ} {p : Pt} :
    ∀ (ds : List Pt) (st : List (Pt × ℤ) × List Pt),
    (∀ q v, lookupA st.1 q = some v → q ∈ P) →
    ∀ q v, lookupA ((ds.foldl (bfsStep nd p) st).1) q = some v → q ∈ P := by
  intro ds
  induction ds with
  | nil => intro st h; exact h
  | cons d t ih =>
      intro st h
      rw [List.foldl_cons]
      exact ih (bfsStep nd p st d) (bfsStep_keys h)

theorem bfsFold_zero {q0 : Pt} {nd : ℤ} {p : Pt} :
    ∀ (ds : List Pt) (st : List (Pt × ℤ) × List Pt),
    lookupA st.1 q0 = some 0 →
    lookupA ((ds.foldl (bfsStep nd p) st).1) q0 = some 0 := by
  intro ds
  induction ds with
  | nil => intro st h; exact h
  | cons d t ih =>
      intro st h
      rw [List.foldl_cons]
      exact ih (bfsStep nd p st d) (bfsStep_zero h)

theorem bfsDist_keys {P : List Pt} :
    ∀ (fuel : ℕ) (dist : List (Pt × ℤ)) (queue : List Pt),
    (∀ q v, lookupA dist q = some v → q ∈ P) →
    ∀ q v, lookupA (bfsDist fuel dist queue) q = some v → q ∈ P := by
  intro fuel
  induction fuel with
  | zero => intro dist queue h; exact h
  | succ f ih =>
      intro dist queue h
      cases queue with
      | nil => exact h
      | cons p rest =>
          show ∀ q v, lookupA (bfsDist f (bfsNbrs dist rest ((lookupA dist p).getD 0 + 1) p).1
            (bfsNbrs dist rest ((lookupA dist p).getD 0 + 1) p).2) q = some v → q ∈ P
          exact ih _ _ (bfsFold_keys dirs (dist, rest) h)

theorem bfsDist_zero {q0 : Pt} :
    ∀ (fuel : ℕ) (dist : List (Pt × ℤ)) (queue : List Pt),
    lookupA dist q0 = some 0 →
    lookupA (bfsDist fuel dist queue) q0 = some 0 := by
  intro fuel
  induction fuel with
  | zero => intro dist queue h; exact h
  | succ f ih =>
      intro dist queue h
      cases queue with
      | nil => exact h
      | cons p rest =>
          show lookupA (bfsDist f (bfsNbrs dist rest ((lookupA dist p).getD 0 + 1) p).1
            (bfsNbrs dist rest ((lookupA dist p).getD 0 + 1) p).2) q0 = some 0
          exact ih _ _ (bfsFold_zero dirs (dist, rest) h)

theorem exists_max_fst : ∀ (l : List Pt), l ≠ [] → ∃ q ∈ l, ∀ r ∈ l, r.1 ≤ q.1 := by
  intro l
  induction l with
  | nil => intro h; exact absurd rfl h
  | cons a t ih =>
      intro _
      cases ht : t with
      | nil => exact ⟨a, List.mem_cons_self a [], by intro r hr; simp at hr; rw [hr]⟩
      | cons b s =>
          obtain ⟨q, hq, hmax⟩ := ih (by rw [ht]; simp)
          rw [← ht] at *
          by_cases hcmp : a.1 ≤ q.1
          · refine ⟨q, List.mem_cons_of_mem a hq, ?_⟩
            intro r hr
            rcases List.mem_cons.mp hr with rfl | hrt
            · exact hcmp
            · exact hmax r hrt
          · refine ⟨a, List.mem_cons_self a t, ?_⟩
            intro r hr
            rcases List.mem_cons.mp hr with rfl | hrt
            · exact le_refl _
            · exact le_trans (hmax r hrt) (by omega)

theorem exists_boundary (l : List Pt) (hne : l ≠ []) :
    ∃ q ∈ l, isBoundaryPix l q = true := by
  obtain ⟨q, hq, hmax⟩ := exists_max_fst l hne
  refine ⟨q, hq, ?_⟩
  unfold isBoundaryPix
  rw [List.any_eq_true]
  refine ⟨(1, 0), by simp [dirs], ?_⟩
  simp only [Bool.not_eq_true']
  rw [decide_eq_false_iff_not]
  intro hmem
  have h2 : ((q.1 + 1, q.2 + 0) : Pt).1 ≤ q.1 := hmax _ hmem
  have h3 : q.1 + 1 ≤ q.1 := h2
  omega

end Macoma

namespace Macoma

theorem clStep_mem {S : List Pt} {dist : List (Pt × ℤ)} {margin : ℤ} {centroid : Pt}
    {st : CandState} {p : Pt} (hp : p ∈ S) (hst : st.found = true → st.best ∈ S) :
    (clStep dist margin centroid st p).found = true →
      (clStep dist margin centroid st p).best ∈ S := by
  by_cases h1 : (lookupA dist p).getD 0 < margin
  · have heq : clStep dist margin centroid st p = st := by
      simp only [clStep, if_pos h1]
    rw [heq]; exact hst
  · by_cases h2 : (p.1 - centroid.1) * (p.1 - centroid.1)
        + (p.2 - centroid.2) * (p.2 - centroid.2) < st.bestSq
    · have heq : clStep dist margin centroid st p
          = ⟨(p.1 - centroid.1) * (p.1 - centroid.1)
              + (p.2 - centroid.2) * (p.2 - centroid.2), p, true⟩ := by
        simp only [clStep, if_neg h1, if_pos h2]
      rw [heq]
      intro _
      exact hp
    · have heq : clStep dist margin centroid st p = st := by
        simp only [clStep, if_neg h1, if_neg h2]
      rw [heq]; exact hst

theorem clFold_mem {S : List Pt} {dist : List (Pt × ℤ)} {margin : ℤ} {centroid : Pt} :
    ∀ (l : List Pt) (st : CandState), (∀ p ∈ l, p ∈ S) →
    (st.found = true → st.best ∈ S) →
    ((l.foldl (clStep dist margin centroid) st).found = true →
      (l.foldl (clStep dist margin centroid) st).best ∈ S) := by
  intro l
  induction l with
  | nil => intro st _ h; exact h
  | cons a t ih =>
      intro st hl h
      rw [List.foldl_cons]
      exact ih _ (fun p hp => hl p (List.mem_cons_of_mem a hp))
        (clStep_mem (hl a (List.mem_cons_self a t)) h)

theorem candLoop_mem {P : List Pt} {dist : List (Pt × ℤ)} {margin : ℤ} {centroid : Pt}
    (h : (candLoop P dist margin centroid).found = true) :
    (candLoop P dist margin centroid).best ∈ P :=
  clFold_mem P ⟨maxIntGo, (0, 0), false⟩ (fun _ hp => hp)
    (fun hf => absurd hf (by decide)) h

theorem fbStep_good {S : List Pt} {dist : List (Pt × ℤ)} {centroid : Pt}
    {st : ℤ × ℤ × Pt} {p : Pt} (hp : p ∈ S)
    (hst : 0 ≤ st.1 ∧ st.2.2 ∈ S) :
    0 ≤ (fbStep dist centroid st p).1 ∧ (fbStep dist centroid st p).2.2 ∈ S := by
  obtain ⟨h0, hm⟩ := hst
  by_cases hc : st.1 < (lookupA dist p).getD 0 ∨
      ((lookupA dist p).getD 0 = st.1 ∧
        (p.1 - centroid.1) * (p.1 - centroid.1)
          + (p.2 - centroid.2) * (p.2 - centroid.2) < st.2.1)
  · have heq : fbStep dist centroid st p
        = ((lookupA dist p).getD 0,
           (p.1 - centroid.1) * (p.1 - centroid.1)
             + (p.2 - centroid.2) * (p.2 - centroid.2), p) := by
      simp only [fbStep, if_pos hc]
    rw [heq]
    refine ⟨?_, hp⟩
    show 0 ≤ (lookupA dist p).getD 0
    rcases hc with h | ⟨h, _⟩
    · omega
    · omega
  · have heq : fbStep dist centroid st p = st := by
      simp only [fbStep, if_neg hc]
    rw [heq]; exact ⟨h0, hm⟩

theorem fbStep_weak {S : List Pt} {dist : List (Pt × ℤ)} {centroid : Pt}
    {st : ℤ × ℤ × Pt} {p : Pt} (hp : p ∈ S)
    (hst : 0 ≤ st.1 → st.2.2 ∈ S) :
    0 ≤ (fbStep dist centroid st p).1 → (fbStep dist centroid st p).2.2 ∈ S := by
  by_cases hc : st.1 < (lookupA dist p).getD 0 ∨
      ((lookupA dist p).getD 0 = st.1 ∧
        (p.1 - centroid.1) * (p.1 - centroid.1)
          + (p.2 - centroid.2) * (p.2 - centroid.2) < st.2.1)
  · have heq : fbStep dist centroid st p
        = ((lookupA dist p).getD 0,
           (p.1 - centroid.1) * (p.1 - centroid.1)
             + (p.2 - centroid.2) * (p.2 - centroid.2), p) := by
      simp only [fbStep, if_pos hc]
    rw [heq]
    intro _
    exact hp
  · have heq : fbStep dist centroid st p = st := by
      simp only [fbStep, if_neg hc]
    rw [heq]; exact hst

theorem fbStep_zero {S : List Pt} {dist : List (Pt × ℤ)} {centroid : Pt}
    {st : ℤ × ℤ × Pt} {p : Pt} (hp : p ∈ S) (hq0 : lookupA dist p = some 0)
    (hst : 0 ≤ st.1 → st.2.2 ∈ S) :
    0 ≤ (fbStep dist centroid st p).1 ∧ (fbStep dist centroid st p).2.2 ∈ S := by
  by_cases hge : 0 ≤ st.1
  · exact fbStep_good hp ⟨hge, hst hge⟩
  · have hc : st.1 < (lookupA dist p).getD 0 ∨
        ((lookupA dist p).getD 0 = st.1 ∧
          (p.1 - centroid.1) * (p.1 - centroid.1)
            + (p.2 - centroid.2) * (p.2 - centroid.2) < st.2.1) := by
      left
      rw [hq0, Option.getD_some]
      omega
    have heq : fbStep dist centroid st p
        = ((lookupA dist p).getD 0,
           (p.1 - centroid.1) * (p.1 - centroid.1)
             + (p.2 - centroid.2) * (p.2 - centroid.2), p) := by
      simp only [fbStep, if_pos hc]
    rw [heq]
    refine ⟨?_, hp⟩
    show 0 ≤ (lookupA dist p).getD 0
    rw [hq0, Option.getD_some]

theorem fbFold_weak {S : List Pt} {dist : List (Pt × ℤ)} {centroid : Pt} :
    ∀ (l : List Pt) (st : ℤ × ℤ × Pt), (∀ p ∈ l, p ∈ S) →
    (0 ≤ st.1 → st.2.2 ∈ S) →
    (0 ≤ (l.foldl (fbStep dist centroid) st).1 →
      (l.foldl (fbStep dist centroid) st).2.2 ∈ S) := by
  intro l
  induction l with
  | nil => intro st _ h; exact h
  | cons a t ih =>
      intro st hl h
      rw [List.foldl_cons]
      exact ih _ (fun p hp => hl p (List.mem_cons_of_mem a hp))
        (fbStep_weak (hl a (List.mem_cons_self a t)) h)

theorem fbFold_good {S : List Pt} {dist : List (Pt × ℤ)} {centroid : Pt} :
    ∀ (l : List Pt) (st : ℤ × ℤ × Pt), (∀ p ∈ l, p ∈ S) →
    (0 ≤ st.1 ∧ st.2.2 ∈ S) →
    (0 ≤ (l.foldl (fbStep dist centroid) st).1 ∧
      (l.foldl (fbStep dist centroid) st).2.2 ∈ S) := by
  intro l
  induction l with
  | nil => intro st _ h; exact h
  | cons a t ih =>
      intro st hl h
      rw [List.foldl_cons]
      exact ih _ (fun p hp => hl p (List.mem_cons_of_mem a hp))
        (fbStep_good (hl a (List.mem_cons_self a t)) h)

theorem fallbackLoop_mem {P : List Pt} {dist : List (Pt × ℤ)} {centroid : Pt}
    {q : Pt} (hq : q ∈ P) (hq0 : lookupA dist q = some 0) :
    (fallbackLoop P dist centroid).2.2 ∈ P := by
  obtain ⟨l1, l2, rfl⟩ := List.append_of_mem hq
  show ((l1 ++ q :: l2).foldl (fbStep dist centroid) (-1, maxIntGo, (0, 0))).2.2
      ∈ l1 ++ q :: l2
  rw [List.foldl_append, List.foldl_cons]
  have hW : 0 ≤ (l1.foldl (fbStep dist centroid) (-1, maxIntGo, (0, 0))).1 →
      (l1.foldl (fbStep dist centroid) (-1, maxIntGo, (0, 0))).2.2 ∈ l1 ++ q :: l2 :=
    fbFold_weak l1 _ (fun p hp => List.mem_append_left _ hp)
      (fun h => absurd (h : (0 : ℤ) ≤ -1) (by omega))
  have hG := @fbStep_zero (l1 ++ q :: l2) dist centroid
      (l1.foldl (fbStep dist centroid) (-1, maxIntGo, (0, 0))) q
      (List.mem_append_right l1 (List.mem_cons_self q l2)) hq0 hW
  exact (fbFold_good l2 _
    (fun p hp => List.mem_append_right l1 (List.mem_cons_of_mem q hp)) hG).2

theorem centroidOk_some {dist : List (Pt × ℤ)} {c : Pt} {m : ℤ}
    (h : centroidOk dist c m = true) : ∃ d, lookupA dist c = some d := by
  cases hl : lookupA dist c with
  | none =>
      unfold centroidOk at h
      rw [hl] at h
      exact Bool.noConfusion h
  | some d => exact ⟨d, rfl⟩

theorem distInit_keys {P : List Pt} :
    ∀ q v, lookupA (distInit P).1 q = some v → q ∈ P := by
  intro q v h
  rw [distInit_lookup] at h
  by_cases hq : q ∈ P
  · exact hq
  · rw [if_neg hq] at h
    exact absurd h (by simp)

theorem interior_core (P : List Pt) (C : Pt) (M : ℤ) (hne : P ≠ []) :
    (if centroidOk (bfsDist (3 * P.length + 1) (distInit P).1 (distInit P).2) C M
      then C
      else
        if (candLoop P (bfsDist (3 * P.length + 1) (distInit P).1 (distInit P).2) M C).found
        then (candLoop P (bfsDist (3 * P.length + 1) (distInit P).1 (distInit P).2) M C).best
        else (fallbackLoop P (bfsDist (3 * P.length + 1) (distInit P).1 (distInit P).2) C).2.2)
      ∈ P := by
  set D := bfsDist (3 * P.length + 1) (distInit P).1 (distInit P).2 with hD
  by_cases h1 : centroidOk D C M
  · rw [if_pos h1]
    obtain ⟨d, hl⟩ := centroidOk_some h1
    rw [hD] at hl
    exact bfsDist_keys (3 * P.length + 1) (distInit P).1 (distInit P).2 distInit_keys C d hl
  · rw [if_neg h1]
    by_cases h2 : (candLoop P D M C).found
    · rw [if_pos h2]
      exact candLoop_mem h2
    · rw [if_neg h2]
      obtain ⟨q, hq, hb⟩ := exists_boundary P hne
      have hq0 : lookupA (distInit P).1 q = some 0 := by
        rw [distInit_lookup, if_pos hq, if_pos hb]
      have hqD : lookupA D q = some 0 := by
        rw [hD]
        exact bfsDist_zero (3 * P.length + 1) (distInit P).1 (distInit P).2 hq0
      exact fallbackLoop_mem hq hqD

theorem interiorPoint_body (z : Zone) (hlen : ¬ z.pixels.length = 0) :
    z.InteriorPoint =
      (if centroidOk
            (bfsDist (3 * z.pixels.length + 1) (distInit z.pixels).1 (distInit z.pixels).2)
            z.Centroid (if z.pixels.length < 100 then 5 else 15)
        then z.Centroid
        else
          if (candLoop z.pixels
                (bfsDist (3 * z.pixels.length + 1) (distInit z.pixels).1 (distInit z.pixels).2)
                (if z.pixels.length < 100 then 5 else 15) z.Centroid).found
          then (candLoop z.pixels
                (bfsDist (3 * z.pixels.length + 1) (distInit z.pixels).1 (distInit z.pixels).2)
                (if z.pixels.length < 100 then 5 else 15) z.Centroid).best
          else (fallbackLoop z.pixels
                (bfsDist (3 * z.pixels.length + 1) (distInit z.pixels).1 (distInit z.pixels).2)
                z.Centroid).2.2) := by
  unfold Zone.InteriorPoint
  rw [if_neg hlen]

/-- C2: for every zone with a non-empty pixel list, `Zone.InteriorPoint`
returns a member of that pixel list (whatever the zone's shape); for a zone
with an empty pixel list it returns the zero point `(0, 0)`. -/
theorem interiorPoint_mem (z : Zone) :
    (z.pixels = [] → z.InteriorPoint = (0, 0)) ∧
    (z.pixels ≠ [] → z.InteriorPoint ∈ z.pixels) := by
  constructor
  · intro h
    unfold Zone.InteriorPoint
    rw [if_pos (by rw [h]; rfl)]
  · intro hne
    have hlen : ¬ z.pixels.length = 0 := by
      intro h
      exact hne (List.eq_nil_of_length_eq_zero h)
    rw [interiorPoint_body z hlen]
    exact interior_core z.pixels z.Centroid _ hne

/-- C2 witness: at a one-pixel zone the interior point is that pixel, and the
empty zone maps to the zero point. -/
theorem interiorPoint_mem_witness :
    (⟨0, [((0 : ℤ), (0 : ℤ))]⟩ : Zone).InteriorPoint ∈ [((0 : ℤ), (0 : ℤ))] ∧
    (⟨0, ([] : List Pt)⟩ : Zone).InteriorPoint = (0, 0) :=
  ⟨(interiorPoint_mem ⟨0, [((0 : ℤ), (0 : ℤ))]⟩).2 (by simp),
   (interiorPoint_mem ⟨0, ([] : List Pt)⟩).1 rfl⟩

end Macoma
